import Mathlib

/-!
Verification of the mintlify-docs-archiver site-mirroring engine
(`src/scraper.js`, `src/main.js`) against its natural-language specification.

The JavaScript is shallowly embedded: pure string manipulation is translated
to executable Lean functions over `List Char` / `String`; the stateful crawl
loop becomes a fuel-indexed step function on an explicit state record; the
effectful download routine becomes a function of an explicit environment
describing the outcomes of its filesystem and network calls.
-/

namespace Archiver

/-- The characters the scraper's `safePath` replaces with a single underscore
(the JavaScript character class `[<>:"\\|?*]` in `scraper.js`). -/
def badChar (c : Char) : Bool :=
  c = '<' || c = '>' || c = ':' || c = '"' || c = '\\' || c = '|' || c = '?' || c = '*'

/-- Global single-character replacement, the semantics of
`s.replace(/c/g, rep)` for a one-character pattern. -/
def replaceChar (t : Char) (rep : List Char) : List Char → List Char
  | [] => []
  | c :: rest => if c = t then rep ++ replaceChar t rep rest else c :: replaceChar t rep rest

/-- Global left-to-right non-overlapping replacement of the three-character
pattern `a b c`, the semantics of `s.replace(/abc/g, rep)`. -/
def replace3 (a b c : Char) (rep : List Char) : List Char → List Char
  | [] => []
  | [x] => [x]
  | [x, y] => [x, y]
  | x :: y :: z :: rest =>
    if x = a ∧ y = b ∧ z = c then rep ++ replace3 a b c rep rest
    else x :: replace3 a b c rep (y :: z :: rest)

/-- `safePath` from `scraper.js`: replaces encoded brackets `%5B`/`%5D` and
literal brackets with reversible placeholders, then replaces the remaining
filesystem-unsafe characters with `_`. -/
def safePath (s : String) : String :=
  let s1 := replace3 '%' '5' 'B' "_lbracket_".data s.data
  let s2 := replace3 '%' '5' 'D' "_rbracket_".data s1
  let s3 := replaceChar '[' "_lbracket_".data s2
  let s4 := replaceChar ']' "_rbracket_".data s3
  String.mk (s4.map (fun c => if badChar c then '_' else c))

/-- A character kept by the JavaScript `replace(/[^a-z0-9]/gi, '_')`:
ASCII letters and digits. -/
def alnumChar (c : Char) : Bool :=
  ('a' ≤ c && c ≤ 'z') || ('A' ≤ c && c ≤ 'Z') || ('0' ≤ c && c ≤ '9')

/-- The query-string sanitizer in `getRelativePath`:
`search.replace(/[^a-z0-9]/gi, '_')`. -/
def safeQuery (s : String) : String :=
  String.mk (s.data.map (fun c => if alnumChar c then c else '_'))

/-- Substring test (`String.prototype.includes`) on character lists. -/
def containsSeq (pat : List Char) : List Char → Bool
  | [] => pat.isEmpty
  | c :: rest => List.isPrefixOf pat (c :: rest) || containsSeq pat rest

/-- Substring test on strings. -/
def strContains (s pat : String) : Bool := containsSeq pat.data s.data

/-- Prefix test on strings, via the underlying character lists. -/
def strStarts (s pat : String) : Bool := List.isPrefixOf pat.data s.data

/-- Suffix test on strings, via the underlying character lists. -/
def strEnds (s pat : String) : Bool := List.isSuffixOf pat.data s.data

/-- A parsed WHATWG URL as the scraper observes it: the fields `hostname`,
`pathname`, `search` (empty or starting with `?`) and `hash` (empty or
starting with `#`) of a JavaScript `URL` object, plus the scheme. -/
structure JsUrl where
  scheme : String
  host : String
  pathname : String
  search : String
  hash : String
deriving DecidableEq, Repr

/-- Serialization of a parsed URL (`url.toString()` for the shapes the
parser below accepts). -/
def urlString (u : JsUrl) : String :=
  u.scheme ++ "://" ++ u.host ++ u.pathname ++ u.search ++ u.hash

/-- Characters allowed in a hostname. -/
def hostChar (c : Char) : Bool := c.isAlphanum || c = '.' || c = '-'

/-- URL characters whose WHATWG parse is verbatim (no percent-encoding,
no slash flipping).  The parser rejects other characters, so the model
stays faithful on the strings it accepts. -/
def simpleUrlChar (c : Char) : Bool :=
  c.isAlphanum ||
    (c = '/' || c = '.' || c = '-' || c = '_' || c = '~' || c = '?' ||
      c = '=' || c = '&' || c = '#' || c = '[' || c = ']' || c = ',')

/-- Splitting a character list at every occurrence of `sep`
(`String.prototype.split` with a one-character separator). -/
def splitChar (sep : Char) : List Char → List (List Char)
  | [] => [[]]
  | c :: rest =>
    match splitChar sep rest with
    | [] => [[c]]
    | p :: ps => if c = sep then [] :: p :: ps else (c :: p) :: ps

/-- Joining with a one-character separator (`Array.prototype.join`). -/
def joinSep (sep : Char) : List (List Char) → List Char
  | [] => []
  | [p] => p
  | p :: q :: ps => p ++ sep :: joinSep sep (q :: ps)

/-- The hostname characters of the post-scheme remainder of a URL string:
everything up to the first `/`, `?` or `#`. -/
def urlHostCs (r : List Char) : List Char :=
  r.takeWhile (fun c => !(c = '/' || c = '?' || c = '#'))

/-- The remainder after the hostname. -/
def urlRest (r : List Char) : List Char := r.drop (urlHostCs r).length

/-- The part of the post-hostname remainder before the fragment. -/
def urlBeforeHash (r : List Char) : List Char :=
  (urlRest r).takeWhile (fun c => !(c = '#'))

/-- The fragment, including its leading `#` (`url.hash`). -/
def urlHashCs (r : List Char) : List Char :=
  (urlRest r).drop (urlBeforeHash r).length

/-- The path characters (before any `?`). -/
def urlPathCs (r : List Char) : List Char :=
  (urlBeforeHash r).takeWhile (fun c => !(c = '?'))

/-- The query, including its leading `?` (`url.search`). -/
def urlSearchCs (r : List Char) : List Char :=
  (urlBeforeHash r).drop (urlPathCs r).length

/-- Parses the post-scheme remainder of an absolute URL. -/
def parseHttpUrlAux (scheme : String) (r : List Char) : Option JsUrl :=
  if r.all simpleUrlChar && !(urlHostCs r).isEmpty && (urlHostCs r).all hostChar &&
      !((splitChar '/' (urlPathCs r)).any (fun seg => seg = ['.'] || seg = ['.', '.'])) then
    some ⟨scheme, String.mk (urlHostCs r),
      if (urlPathCs r).isEmpty then "/" else String.mk (urlPathCs r),
      String.mk (urlSearchCs r), String.mk (urlHashCs r)⟩
  else none

/-- Partial model of the WHATWG URL constructor for absolute `http(s)` URLs
of the plain shape `scheme://host/path?query#fragment`.  Returns `none`
for strings whose parse would involve behaviour the model does not cover
(ports, userinfo, percent-encoding, dot-segment removal, backslashes). -/
def parseHttpUrl (s : String) : Option JsUrl :=
  if strStarts s "https://" then parseHttpUrlAux "https" (s.data.drop 8)
  else if strStarts s "http://" then parseHttpUrlAux "http" (s.data.drop 7)
  else none

/-- The allow-list built in `runScraper`: the configured domain plus the
hard-coded CDN hosts (`cdn.jsdelivr.net` appears twice in the source). -/
def allowedDomains (domain : String) : List String :=
  [domain, "mintlify.b-cdn.net", "mintlify.s3.us-west-1.amazonaws.com",
    "cdn.jsdelivr.net", "cdn.jsdelivr.net"]

/-- `isAllowedUrl` from `scraper.js`: parse the URL and test whether its
hostname is one of the allowed domains; a parse failure yields `false`. -/
def isAllowedUrlS (domain s : String) : Bool :=
  match parseHttpUrl s with
  | some u => (allowedDomains domain).any (fun d => d = u.host)
  | none => false

/-- Does the serialized URL trigger query-string folding in
`getRelativePath`?  The source tests
`urlString.includes('.css') || … includes('.js') || '.png' || '.jpg' || '.svg'`
on the whole URL string. -/
def resourceLike (s : String) : Bool :=
  strContains s ".css" || strContains s ".js" || strContains s ".png" ||
    strContains s ".jpg" || strContains s ".svg"

/-- The body of `getRelativePath` from `scraper.js`, with the parsed URL and
the original URL string (used by the `includes` tests) passed explicitly:
cross-origin URLs gain an `/assets/<host>` placement, the path is made
filesystem-safe, and the query string is folded in for resource-like URLs. -/
def getRelativePathCore (domain : String) (u : JsUrl) (orig : String) : String :=
  if u.search ≠ "" ∧ resourceLike orig then
    safePath (if u.host ≠ domain then "/assets/" ++ u.host ++ u.pathname else u.pathname) ++
      safeQuery u.search
  else
    safePath (if u.host ≠ domain then "/assets/" ++ u.host ++ u.pathname else u.pathname)

/-- `getRelativePath` applied to an already-parsed URL (the URL string the
source receives is the serialization of `u`). -/
def getRelativePath (domain : String) (u : JsUrl) : String :=
  getRelativePathCore domain u (urlString u)

/-- `getRelativePath` as the source exposes it, from a URL string; `none`
models the `catch` branch that returns `null` on a parse failure. -/
def getRelativePathS (domain s : String) : Option String :=
  (parseHttpUrl s).map (fun u => getRelativePathCore domain u s)

/-- `normalizeUrl` from `scraper.js` on a parsed URL: drop the fragment and
re-serialize. -/
def normalizeUrl (u : JsUrl) : String := urlString { u with hash := "" }

/-- `normalizeUrl` from a URL string; a parse failure returns the input
unchanged, as the source's `catch` branch does. -/
def normalizeUrlS (s : String) : String :=
  match parseHttpUrl s with
  | some u => normalizeUrl u
  | none => s

/-- A character left untouched by every stage of `safePath`: not a percent
sign, not a bracket, not in the unsafe class. -/
def plainChar (c : Char) : Bool :=
  !(c = '%' || c = '[' || c = ']' || badChar c)

/-- A string made only of `plainChar` characters. -/
def plainStr (s : String) : Bool := s.data.all plainChar

theorem replace3_eq_self (a b c : Char) (rep : List Char) (s : List Char)
    (ha : a ∉ s) : replace3 a b c rep s = s := by
  induction s with
  | nil => rfl
  | cons x tail ih =>
    match tail with
    | [] => rfl
    | [y] => rfl
    | y :: z :: rest =>
      have hxa : ¬(x = a ∧ y = b ∧ z = c) := by
        rintro ⟨rfl, -, -⟩; exact ha (List.mem_cons_self _ _)
      have ha' : a ∉ y :: z :: rest := fun h => ha (List.mem_cons_of_mem _ h)
      simp only [replace3, if_neg hxa]
      exact congrArg (x :: ·) (ih ha')

theorem replaceChar_eq_self (t : Char) (rep : List Char) (s : List Char)
    (ht : t ∉ s) : replaceChar t rep s = s := by
  induction s with
  | nil => rfl
  | cons x tail ih =>
    have hxt : ¬ x = t := fun h => ht (h ▸ List.mem_cons_self _ _)
    have ht' : t ∉ tail := fun h => ht (List.mem_cons_of_mem _ h)
    simp only [replaceChar, if_neg hxt]
    exact congrArg (x :: ·) (ih ht')

theorem data_inj {s t : String} (h : s.data = t.data) : s = t := by
  cases s; cases t; exact congrArg String.mk h

theorem not_mem_of_all {p : Char → Bool} {c : Char} {s : List Char}
    (hs : s.all p) (hc : p c = false) : c ∉ s := by
  intro hmem
  have := List.all_eq_true.mp hs c hmem
  rw [hc] at this
  exact Bool.noConfusion this

/-- `safePath` leaves a string of plain characters unchanged. -/
theorem safePath_eq_self (s : String) (h : plainStr s) : safePath s = s := by
  have hall : s.data.all plainChar := h
  have h1 : replace3 '%' '5' 'B' "_lbracket_".data s.data = s.data :=
    replace3_eq_self _ _ _ _ _ (not_mem_of_all hall (by decide))
  have h2 : replace3 '%' '5' 'D' "_rbracket_".data s.data = s.data :=
    replace3_eq_self _ _ _ _ _ (not_mem_of_all hall (by decide))
  have h3 : replaceChar '[' "_lbracket_".data s.data = s.data :=
    replaceChar_eq_self _ _ _ (not_mem_of_all hall (by decide))
  have h4 : replaceChar ']' "_rbracket_".data s.data = s.data :=
    replaceChar_eq_self _ _ _ (not_mem_of_all hall (by decide))
  have h5 : s.data.map (fun c => if badChar c then '_' else c) = s.data := by
    have : ∀ c ∈ s.data, (if badChar c then '_' else c) = c := by
      intro c hc
      have hp := List.all_eq_true.mp hall c hc
      have hb : badChar c = false := by
        revert hp; unfold plainChar
        cases hbd : badChar c <;> simp [hbd]
      rw [hb]; rfl
    calc s.data.map (fun c => if badChar c then '_' else c)
        = s.data.map id := List.map_congr_left this
      _ = s.data := List.map_id _
  show String.mk _ = s
  rw [h1, h2, h3, h4, h5]

theorem plainStr_append (a b : String) (ha : plainStr a) (hb : plainStr b) :
    plainStr (a ++ b) := by
  unfold plainStr at *
  rw [String.data_append, List.all_append, ha, hb]
  rfl

/-- Hostnames contain no slash and paths start with one, so gluing
`host ++ path` is injective in the pair. -/
theorem append_host_path_inj : ∀ h1 h2 t1 t2 : List Char, '/' ∉ h1 → '/' ∉ h2 →
    h1 ++ '/' :: t1 = h2 ++ '/' :: t2 → h1 = h2 ∧ t1 = t2 := by
  intro h1
  induction h1 with
  | nil =>
    intro h2 t1 t2 _ hh2 heq
    cases h2 with
    | nil => simpa using heq
    | cons c h2' =>
      exfalso
      have : '/' = c := by simpa using congrArg List.head? heq
      exact hh2 (this ▸ List.mem_cons_self _ _)
  | cons c h1' ih =>
    intro h2 t1 t2 hh1 hh2 heq
    cases h2 with
    | nil =>
      exfalso
      have : c = '/' := by simpa using congrArg List.head? heq
      exact hh1 (this ▸ List.mem_cons_self _ _)
    | cons c2 h2' =>
      have hc : c = c2 := by simpa using congrArg List.head? heq
      have htl : h1' ++ '/' :: t1 = h2' ++ '/' :: t2 := by
        simpa using congrArg List.tail heq
      have hm1 : '/' ∉ h1' := fun h => hh1 (List.mem_cons_of_mem _ h)
      have hm2 : '/' ∉ h2' := fun h => hh2 (List.mem_cons_of_mem _ h)
      obtain ⟨he, ht⟩ := ih h2' t1 t2 hm1 hm2 htl
      exact ⟨by rw [hc, he], ht⟩

/-- C1, counterexample: two distinct same-origin resource URLs, differing in
their path, that `getRelativePath` maps to the same local path: the literal
bracket in `/a[b` and the text `/a_lbracket_b` collide after the
`safePath` substitution. -/
theorem c1_collision_counterexample :
    getRelativePathS "docs.example.com" "https://docs.example.com/a[b" =
      getRelativePathS "docs.example.com" "https://docs.example.com/a_lbracket_b" ∧
    ("https://docs.example.com/a[b" : String) ≠ "https://docs.example.com/a_lbracket_b" := by
  constructor
  · rfl
  · decide

/-- C1, amended: `getRelativePath` is injective in (hostname, path) on URLs
with an empty query whose hostname and path consist of characters that
`safePath` leaves unchanged (no percent signs, brackets, or
filesystem-unsafe characters), provided the two URLs are both same-origin
or both cross-origin. -/
theorem c1_amended (domain : String) (u1 u2 : JsUrl)
    (hp1 : plainStr u1.host ∧ plainStr u1.pathname)
    (hp2 : plainStr u2.host ∧ plainStr u2.pathname)
    (hq1 : u1.search = "") (hq2 : u2.search = "")
    (hs1 : strStarts u1.pathname "/") (hs2 : strStarts u2.pathname "/")
    (hh1 : '/' ∉ u1.host.data) (hh2 : '/' ∉ u2.host.data)
    (hcase : (u1.host = domain ∧ u2.host = domain) ∨
      (u1.host ≠ domain ∧ u2.host ≠ domain))
    (heq : getRelativePath domain u1 = getRelativePath domain u2) :
    u1.host = u2.host ∧ u1.pathname = u2.pathname := by
  have hbase : ∀ u : JsUrl, u.search = "" → plainStr u.host → plainStr u.pathname →
      getRelativePath domain u =
        safePath (if u.host ≠ domain then "/assets/" ++ u.host ++ u.pathname else u.pathname) := by
    intro u hq _ _
    unfold getRelativePath getRelativePathCore
    rw [if_neg]
    rintro ⟨hne, -⟩
    exact hne hq
  rw [hbase u1 hq1 hp1.1 hp1.2, hbase u2 hq2 hp2.1 hp2.2] at heq
  rcases hcase with ⟨hd1, hd2⟩ | ⟨hd1, hd2⟩
  · rw [if_neg (by simp [hd1]), if_neg (by simp [hd2])] at heq
    rw [safePath_eq_self _ hp1.2, safePath_eq_self _ hp2.2] at heq
    exact ⟨hd1.trans hd2.symm, heq⟩
  · rw [if_pos hd1, if_pos hd2] at heq
    have hpl1 : plainStr ("/assets/" ++ u1.host ++ u1.pathname) :=
      plainStr_append _ _ (plainStr_append _ _ (by decide) hp1.1) hp1.2
    have hpl2 : plainStr ("/assets/" ++ u2.host ++ u2.pathname) :=
      plainStr_append _ _ (plainStr_append _ _ (by decide) hp2.1) hp2.2
    rw [safePath_eq_self _ hpl1, safePath_eq_self _ hpl2] at heq
    have hdata := congrArg String.data heq
    simp only [String.data_append, List.append_assoc] at hdata
    have hcancel : u1.host.data ++ u1.pathname.data = u2.host.data ++ u2.pathname.data :=
      List.append_cancel_left hdata
    obtain ⟨t1, hpa1⟩ : ∃ t, u1.pathname.data = '/' :: t := by
      have := List.isPrefixOf_iff_prefix.mp hs1
      obtain ⟨t, ht⟩ := this
      exact ⟨t, by simpa using ht.symm⟩
    obtain ⟨t2, hpa2⟩ : ∃ t, u2.pathname.data = '/' :: t := by
      have := List.isPrefixOf_iff_prefix.mp hs2
      obtain ⟨t, ht⟩ := this
      exact ⟨t, by simpa using ht.symm⟩
    rw [hpa1, hpa2] at hcancel
    obtain ⟨hhost, hpath⟩ := append_host_path_inj _ _ _ _ hh1 hh2 hcancel
    exact ⟨data_inj hhost, data_inj (by rw [hpa1, hpa2, hpath])⟩

/-- C7, counterexample: two font resource URLs that differ only in their
(disambiguating) query string are mapped to the same local path, because
`getRelativePath` folds the query in only for URL strings containing
`.css`/`.js`/`.png`/`.jpg`/`.svg`, which excludes font extensions. -/
theorem c7_query_counterexample :
    getRelativePath "docs.example.com" ⟨"https", "docs.example.com", "/f.woff2", "?v=1", ""⟩ =
      getRelativePath "docs.example.com" ⟨"https", "docs.example.com", "/f.woff2", "?v=2", ""⟩ ∧
    (⟨"https", "docs.example.com", "/f.woff2", "?v=1", ""⟩ : JsUrl) ≠
      ⟨"https", "docs.example.com", "/f.woff2", "?v=2", ""⟩ := by
  constructor
  · rfl
  · decide

/-- C7, amended: the query string is folded into the local path exactly when
it is nonempty and the serialized URL contains one of the substrings
`.css`, `.js`, `.png`, `.jpg`, `.svg` anywhere; otherwise the mapping
ignores the query entirely (the map of `u` is the map of `u` with its
query stripped). -/
theorem c7_amended (domain : String) (u : JsUrl) :
    getRelativePath domain u =
      getRelativePath domain { u with search := "" } ++
        (if u.search ≠ "" ∧ resourceLike (urlString u) then safeQuery u.search else "") := by
  have hbase : getRelativePath domain { u with search := "" } =
      safePath (if u.host ≠ domain then "/assets/" ++ u.host ++ u.pathname else u.pathname) := by
    unfold getRelativePath getRelativePathCore
    rw [if_neg]
    rintro ⟨hne, -⟩
    exact hne rfl
  rw [hbase]
  unfold getRelativePath getRelativePathCore
  by_cases h : u.search ≠ "" ∧ resourceLike (urlString u)
  · rw [if_pos h, if_pos h]
  · rw [if_neg h, if_neg h, String.append_empty]

/-- C6, counterexample: URLs differing only by a trailing slash do not
collapse under `normalizeUrl`; the source only strips the fragment. -/
theorem c6_trailing_slash_counterexample :
    normalizeUrlS "https://docs.example.com/a" ≠ normalizeUrlS "https://docs.example.com/a/" := by
  decide

theorem parseHttpUrlAux_inv (scheme : String) (r : List Char) (u : JsUrl)
    (hp : parseHttpUrlAux scheme r = some u) :
    u.scheme = scheme ∧ u.host.data.all hostChar ∧
      '#' ∉ u.pathname.data ∧ '#' ∉ u.search.data := by
  unfold parseHttpUrlAux at hp
  split at hp
  case isFalse => exact Option.noConfusion hp
  case isTrue hcond =>
    have hu := (Option.some.injEq _ _).mp hp
    have hhost : (urlHostCs r).all hostChar := by
      have := hcond
      simp only [Bool.and_eq_true] at this
      exact this.1.2
    have hpathfree : '#' ∉ urlPathCs r := by
      intro hm
      have hmem : '#' ∈ urlBeforeHash r := (List.takeWhile_sublist _).subset hm
      have := List.mem_takeWhile_imp hmem
      simp at this
    have hsearchfree : '#' ∉ urlSearchCs r := by
      intro hm
      have hmem : '#' ∈ urlBeforeHash r := List.mem_of_mem_drop hm
      have := List.mem_takeWhile_imp hmem
      simp at this
    subst hu
    refine ⟨rfl, hhost, ?_, hsearchfree⟩
    by_cases he : (urlPathCs r).isEmpty
    · simp only [he, if_pos]
      decide
    · simp only [he, if_neg, Bool.false_eq_true, not_false_iff]
      exact hpathfree

/-- C6, amended: the frontier's dedup key strips the fragment and nothing
else.  Any two fragments of the same base URL normalize identically, and
the normalized string carries no fragment; the trailing-slash form is not
canonicalized (see the counterexample). -/
theorem c6_amended (s : String) (u : JsUrl) (hp : parseHttpUrl s = some u) :
    normalizeUrlS s = normalizeUrl u ∧
    (∀ h' : String, normalizeUrl { u with hash := h' } = normalizeUrl u) ∧
    '#' ∉ (normalizeUrl u).data := by
  refine ⟨by simp [normalizeUrlS, hp], fun h' => rfl, ?_⟩
  have hinv : u.host.data.all hostChar ∧ '#' ∉ u.pathname.data ∧ '#' ∉ u.search.data := by
    unfold parseHttpUrl at hp
    split at hp
    · exact ⟨(parseHttpUrlAux_inv _ _ _ hp).2.1, (parseHttpUrlAux_inv _ _ _ hp).2.2⟩
    · split at hp
      · exact ⟨(parseHttpUrlAux_inv _ _ _ hp).2.1, (parseHttpUrlAux_inv _ _ _ hp).2.2⟩
      · exact Option.noConfusion hp
  have hsch : u.scheme = "https" ∨ u.scheme = "http" := by
    unfold parseHttpUrl at hp
    split at hp
    · exact Or.inl (parseHttpUrlAux_inv _ _ _ hp).1
    · split at hp
      · exact Or.inr (parseHttpUrlAux_inv _ _ _ hp).1
      · exact Option.noConfusion hp
  have hhostfree : '#' ∉ u.host.data :=
    not_mem_of_all hinv.1 (by decide)
  have h1 : '#' ∉ u.scheme.data := by
    rcases hsch with h | h <;> rw [h] <;> decide
  have h2 : '#' ∉ ("://" : String).data := by decide
  have h5 : '#' ∉ ("" : String).data := by decide
  intro hm
  unfold normalizeUrl urlString at hm
  simp only [String.data_append, List.mem_append] at hm
  have hB : '#' ∉ ([':', '/', '/'] : List Char) := by decide
  have hN : '#' ∉ ([] : List Char) := by decide
  have h4 := hinv.2.1
  have h6 := hinv.2.2
  tauto

/-- Witness for `c6_amended` at a concrete URL carrying a fragment. -/
theorem c6_amended_witness :
    normalizeUrlS "https://docs.example.com/a#sec" =
      normalizeUrl ⟨"https", "docs.example.com", "/a", "", "#sec"⟩ :=
  (c6_amended "https://docs.example.com/a#sec"
    ⟨"https", "docs.example.com", "/a", "", "#sec"⟩ (by decide)).1

/-- Witness for `c1_amended` at a concrete pair of cross-origin URLs. -/
theorem c1_amended_witness :
    getRelativePath "docs.example.com" ⟨"https", "cdn.jsdelivr.net", "/pkg/a", "", ""⟩ =
      getRelativePath "docs.example.com" ⟨"https", "cdn.jsdelivr.net", "/pkg/a", "", ""⟩ ∧
    (⟨"https", "cdn.jsdelivr.net", "/pkg/a", "", ""⟩ : JsUrl).host =
      (⟨"https", "cdn.jsdelivr.net", "/pkg/a", "", ""⟩ : JsUrl).host := by
  refine ⟨rfl, ?_⟩
  exact (c1_amended "docs.example.com" _ _ (by decide) (by decide) rfl rfl
    (by decide) (by decide) (by decide) (by decide)
    (Or.inr ⟨by decide, by decide⟩) rfl).1

/-! ### Resource Store: `downloadResource` (`scraper.js` lines 124-224) -/

/-- The error kinds `downloadResource` distinguishes when a file write throws:
`ENOENT` (missing parent directory) triggers the retry, anything else does
not. -/
inductive WriteErr where
  | enoent
  | other
deriving DecidableEq, Repr

/-- The environment of one `downloadResource` call: the outcomes of its
filesystem and network effects, in program order.  `write2` is the outcome
of the write retried after recreating the directory (unused unless the
first write fails with `ENOENT`). -/
structure DLEnv where
  mapOk : Bool
  mkdirOk : Bool
  fetchOk : Bool
  httpOk : Bool
  write1 : Option WriteErr
  write2 : Option WriteErr
deriving DecidableEq, Repr

/-- How one `downloadResource` call ends.  Every constructor corresponds to a
`return` (or normal completion) in the source; none of them propagates an
exception, so no outcome aborts the crawl. -/
inductive DLOutcome where
  | skipped
  | mapFailed
  | dirFailed
  | fetchFailed
  | httpFailed
  | writeFailed
  | success
deriving DecidableEq, Repr

/-- The observable trace of one `downloadResource` call: its outcome and how
many fetches and file writes it attempted. -/
structure DLTrace where
  outcome : DLOutcome
  fetches : Nat
  writes : Nat
deriving DecidableEq, Repr

/-- `downloadResource` from `scraper.js` over an explicit effect environment:
skip if already seen or not allow-listed; give up (without fetching) if the
path mapping or directory creation fails; fetch once, with network or HTTP
failure ending the call; write once, retrying exactly once after an
`ENOENT` failure. -/
def downloadResource (allowed seen : Bool) (env : DLEnv) : DLTrace :=
  if seen || !allowed then ⟨.skipped, 0, 0⟩
  else if !env.mapOk then ⟨.mapFailed, 0, 0⟩
  else if !env.mkdirOk then ⟨.dirFailed, 0, 0⟩
  else if !env.fetchOk then ⟨.fetchFailed, 1, 0⟩
  else if !env.httpOk then ⟨.httpFailed, 1, 0⟩
  else
    match env.write1 with
    | none => ⟨.success, 1, 1⟩
    | some .enoent =>
      match env.write2 with
      | none => ⟨.success, 1, 2⟩
      | some _ => ⟨.writeFailed, 1, 2⟩
    | some .other => ⟨.writeFailed, 1, 1⟩

/-- C8: a write that fails because the parent directory is missing is retried
exactly once (two write attempts) and the resource fails only if the retry
fails too; a failed fetch is not retried (one fetch, no write) and simply
ends the call; the call never attempts more than one fetch or two
writes. -/
theorem c8_write_retry (env : DLEnv)
    (hlive : env.mapOk = true ∧ env.mkdirOk = true) :
    (env.fetchOk = false → downloadResource true false env = ⟨.fetchFailed, 1, 0⟩) ∧
    (env.fetchOk = true → env.httpOk = true → env.write1 = some .enoent →
      (downloadResource true false env).writes = 2 ∧
      ((downloadResource true false env).outcome = .writeFailed ↔ env.write2 ≠ none)) ∧
    (env.fetchOk = true → env.httpOk = true → env.write1 = some .other →
      downloadResource true false env = ⟨.writeFailed, 1, 1⟩) ∧
    ((downloadResource true false env).fetches ≤ 1 ∧
      (downloadResource true false env).writes ≤ 2) := by
  rcases env with ⟨mo, ko, fo, ho, w1, w2⟩
  obtain ⟨hm, hk⟩ := hlive
  simp only at hm hk
  subst hm
  subst hk
  cases fo <;> cases ho <;> rcases w1 with _ | e1 <;> rcases w2 with _ | e2 <;>
    first
      | decide
      | (cases e1 <;> decide)
      | (cases e2 <;> decide)
      | (cases e1 <;> cases e2 <;> decide)

/-- Witness for `c8_write_retry`: the concrete environment where the first
write fails with `ENOENT` and the retried write fails as well. -/
theorem c8_write_retry_witness :
    (downloadResource true false ⟨true, true, true, true, some .enoent, some .other⟩).writes = 2 ∧
    (downloadResource true false ⟨true, true, true, true, some .enoent, some .other⟩).outcome =
      .writeFailed :=
  ⟨((c8_write_retry ⟨true, true, true, true, some .enoent, some .other⟩
      ⟨rfl, rfl⟩).2.1 rfl rfl rfl).1,
    ((c8_write_retry ⟨true, true, true, true, some .enoent, some .other⟩
      ⟨rfl, rfl⟩).2.1 rfl rfl rfl).2.mpr (by decide)⟩

/-! ### Entry point: `main.js` argument handling -/

/-- The default of the `maxPages` parameter in `runScraper`'s signature
(`scraper.js` line 10), which the module's own documentation and the README
give as the default page budget. -/
def runScraperDefaultMaxPages : Int := 5

/-- The `maxPages` value `main.js` computes from `process.argv`: the parsed
second argument when present (`none` models the `isNaN` exit path,
restricting `parseInt` to fully numeric strings), and `-1` when omitted. -/
def mainMaxPages (argv : List String) : Option Int :=
  if argv.length > 1 then
    match argv[1]? with
    | some a =>
      match a.toInt? with
      | some n => some n
      | none => none
    | none => none
  else some (-1)

/-- C9: invoked with the `maxPages` argument omitted, `main.js` passes `-1`
(unlimited) to the scraper, not the small positive default (5) that its
own usage documentation and `runScraper`'s parameter default promise. -/
theorem c9_default_maxPages_bug :
    mainMaxPages ["docs.example.com"] = some (-1) ∧
    runScraperDefaultMaxPages = 5 ∧
    mainMaxPages ["docs.example.com"] ≠ some runScraperDefaultMaxPages := by
  refine ⟨rfl, rfl, ?_⟩
  decide

/-! ### Crawl Frontier and Orchestrator: the `while` loop of `runScraper`
(`scraper.js` lines 1949-1968) together with the gate of `processPage`
(lines 333-351).  URLs are abstract: the loop is parametric in the
normalization function, the allow-list predicate and the link map that the
rendered pages provide. -/

/-- The mutable state of the crawl loop: `pagesToProcess`, `processedPages`
(as a list of normalized URLs in processing order) and the `processed`
counter. -/
structure CrawlState (U : Type) where
  queue : List U
  processedP : List U
  count : Nat
deriving DecidableEq, Repr

/-- The link-enqueueing `for` loop of `runScraper`: push a link unless its
normalization is already processed or already queued (compared by
normalization). -/
def enqueueLinks {U : Type} [DecidableEq U] (normalize : U → U)
    (p' : List U) (q : List U) (ls : List U) : List U :=
  ls.foldl
    (fun q l =>
      if normalize l ∈ p' ∨ q.any (fun x => normalize x = normalize l) then q
      else q ++ [l])
    q

/-- One iteration of the crawl loop: pop the head of the queue, run
`processPage` on it (skip if already processed or not allow-listed,
otherwise record it and return its allow-listed links), enqueue the new
links, and increment `processed`. -/
def crawlStep {U : Type} [DecidableEq U] (normalize : U → U) (allowed : U → Bool)
    (links : U → List U) : CrawlState U → CrawlState U
  | ⟨[], p, c⟩ => ⟨[], p, c⟩
  | ⟨u :: qrest, p, c⟩ =>
    let n := normalize u
    if n ∈ p ∨ ¬ allowed n then ⟨qrest, p, c + 1⟩
    else
      let ls := (links u).filter allowed
      let p' := p ++ [n]
      ⟨enqueueLinks normalize p' qrest ls, p', c + 1⟩

/-- The loop guard: `pagesToProcess.length > 0 && (MAX_PAGES === -1 ||
processed < MAX_PAGES)`. -/
def crawlGuard {U : Type} (maxPages : Int) (st : CrawlState U) : Prop :=
  st.queue ≠ [] ∧ (maxPages = -1 ∨ (st.count : Int) < maxPages)

instance {U : Type} [DecidableEq U] (maxPages : Int) (st : CrawlState U) :
    Decidable (crawlGuard maxPages st) := by
  unfold crawlGuard
  infer_instance

/-- The crawl loop as a fuel-indexed iteration of `crawlStep`; with enough
fuel this is exactly the source's `while` loop, which runs `crawlStep`
until the guard fails. -/
def crawl {U : Type} [DecidableEq U] (normalize : U → U) (allowed : U → Bool)
    (links : U → List U) (maxPages : Int) : Nat → CrawlState U → CrawlState U
  | 0, st => st
  | fuel + 1, st =>
    if crawlGuard maxPages st then
      crawl normalize allowed links maxPages fuel (crawlStep normalize allowed links st)
    else st

/-- The initial crawl state: `pagesToProcess = [BASE_URL]`. -/
def initState {U : Type} (seed : U) : CrawlState U := ⟨[seed], [], 0⟩

theorem crawl_of_not_guard {U : Type} [DecidableEq U] (normalize : U → U)
    (allowed : U → Bool) (links : U → List U) (m : Int) (fuel : Nat)
    (st : CrawlState U) (h : ¬ crawlGuard m st) :
    crawl normalize allowed links m fuel st = st := by
  cases fuel with
  | zero => rfl
  | succ fuel => simp [crawl, h]

theorem crawl_add {U : Type} [DecidableEq U] (normalize : U → U)
    (allowed : U → Bool) (links : U → List U) (m : Int) (f1 f2 : Nat) :
    ∀ st : CrawlState U, crawl normalize allowed links m (f1 + f2) st =
      crawl normalize allowed links m f2 (crawl normalize allowed links m f1 st) := by
  induction f1 with
  | zero => intro st; rw [Nat.zero_add]; rfl
  | succ f1 ih =>
    intro st
    by_cases h : crawlGuard m st
    · have h1 : f1 + 1 + f2 = (f1 + f2) + 1 := by omega
      rw [h1]
      show (if crawlGuard m st then _ else st) = _
      rw [if_pos h]
      show crawl normalize allowed links m (f1 + f2) _ = _
      rw [ih]
      congr 1
      show _ = (if crawlGuard m st then _ else st)
      rw [if_pos h]
    · rw [crawl_of_not_guard _ _ _ _ _ _ h, crawl_of_not_guard _ _ _ _ _ _ h,
        crawl_of_not_guard _ _ _ _ _ _ h]

theorem enqueueLinks_cons {U : Type} [DecidableEq U] (normalize : U → U)
    (p' q : List U) (l : U) (ls : List U) :
    enqueueLinks normalize p' q (l :: ls) =
      enqueueLinks normalize p'
        (if normalize l ∈ p' ∨ q.any (fun x => normalize x = normalize l) then q
          else q ++ [l])
        ls := rfl

theorem enqueueLinks_spec {U : Type} [DecidableEq U] (normalize : U → U)
    (p' : List U) (ls : List U) : ∀ q : List U,
    ∃ ex, enqueueLinks normalize p' q ls = q ++ ex ∧
      ∀ x ∈ ex, x ∈ ls ∧ normalize x ∉ p' := by
  induction ls with
  | nil => intro q; exact ⟨[], by simp [enqueueLinks], by simp⟩
  | cons l ls ih =>
    intro q
    by_cases h : normalize l ∈ p' ∨ q.any (fun x => normalize x = normalize l)
    · obtain ⟨ex, hex, hprop⟩ := ih q
      refine ⟨ex, ?_, fun x hx => ⟨List.mem_cons_of_mem _ (hprop x hx).1, (hprop x hx).2⟩⟩
      rw [enqueueLinks_cons, if_pos h]
      exact hex
    · obtain ⟨ex, hex, hprop⟩ := ih (q ++ [l])
      refine ⟨l :: ex, ?_, ?_⟩
      · rw [enqueueLinks_cons, if_neg h, hex]
        simp
      · intro x hx
        rcases List.mem_cons.mp hx with rfl | hx
        · push_neg at h
          exact ⟨List.mem_cons_self _ _, h.1⟩
        · exact ⟨List.mem_cons_of_mem _ (hprop x hx).1, (hprop x hx).2⟩

theorem enqueueLinks_nodup {U : Type} [DecidableEq U] (normalize : U → U)
    (p' : List U) (ls : List U) : ∀ q : List U, (q.map normalize).Nodup →
    ((enqueueLinks normalize p' q ls).map normalize).Nodup := by
  induction ls with
  | nil => intro q hq; exact hq
  | cons l ls ih =>
    intro q hq
    by_cases h : normalize l ∈ p' ∨ q.any (fun x => normalize x = normalize l)
    · rw [enqueueLinks_cons, if_pos h]
      exact ih q hq
    · rw [enqueueLinks_cons, if_neg h]
      apply ih (q ++ [l])
      push_neg at h
      have hany : ¬ (q.any fun x => decide (normalize x = normalize l)) = true := h.2
      have hnotin : normalize l ∉ q.map normalize := by
        intro hmem
        obtain ⟨x, hx, hxe⟩ := List.mem_map.mp hmem
        exact hany (List.any_eq_true.mpr ⟨x, hx, by simp [hxe]⟩)
      simp only [List.map_append, List.map_cons, List.map_nil, List.nodup_append]
      refine ⟨hq, List.nodup_singleton _, ?_⟩
      intro x hx
      simp only [List.mem_singleton]
      intro hxe
      exact hnotin (hxe ▸ hx)

theorem enqueueLinks_cover {U : Type} [DecidableEq U] (normalize : U → U)
    (p' : List U) (ls : List U) : ∀ q : List U, ∀ l ∈ ls,
    normalize l ∈ p' ∨
      ∃ x ∈ enqueueLinks normalize p' q ls, normalize x = normalize l := by
  induction ls with
  | nil => intro q l hl; cases hl
  | cons l0 ls ih =>
    intro q l hl
    by_cases h : normalize l0 ∈ p' ∨ q.any (fun x => normalize x = normalize l0)
    · rw [enqueueLinks_cons, if_pos h]
      rcases List.mem_cons.mp hl with rfl | hl
      · rcases h with h | h
        · exact Or.inl h
        · obtain ⟨x, hx, hxe⟩ := List.any_eq_true.mp h
          obtain ⟨ex, hex, -⟩ := enqueueLinks_spec normalize p' ls q
          rw [hex]
          exact Or.inr ⟨x, List.mem_append_left _ hx, by simpa using hxe⟩
      · exact ih q l hl
    · rw [enqueueLinks_cons, if_neg h]
      rcases List.mem_cons.mp hl with rfl | hl
      · obtain ⟨ex, hex, -⟩ := enqueueLinks_spec normalize p' ls (q ++ [l])
        rw [hex]
        exact Or.inr ⟨l, by simp, rfl⟩
      · exact ih (q ++ [l0]) l hl

theorem crawlStep_cons {U : Type} [DecidableEq U] (normalize : U → U)
    (allowed : U → Bool) (links : U → List U) (u : U) (qrest p : List U) (c : Nat) :
    crawlStep normalize allowed links ⟨u :: qrest, p, c⟩ =
      if normalize u ∈ p ∨ ¬ allowed (normalize u) then ⟨qrest, p, c + 1⟩
      else ⟨enqueueLinks normalize (p ++ [normalize u]) qrest ((links u).filter allowed),
        p ++ [normalize u], c + 1⟩ := rfl

theorem crawl_succ {U : Type} [DecidableEq U] (normalize : U → U)
    (allowed : U → Bool) (links : U → List U) (m : Int) (fuel : Nat) (st : CrawlState U) :
    crawl normalize allowed links m (fuel + 1) st =
      if crawlGuard m st then
        crawl normalize allowed links m fuel (crawlStep normalize allowed links st)
      else st := rfl

/-- The loop invariant of the crawl: every queued URL is allow-listed,
reachable, not yet processed, and queued at most once per normalization;
the processed list is duplicate-free, consists of normalized allow-listed
members of `R`, and is link-closed up to the queue; the seed is covered;
and the `processed` counter counts the processed list. -/
structure CrawlInv {U : Type} [DecidableEq U] (normalize : U → U) (allowed : U → Bool)
    (links : U → List U) (seed : U) (R : Finset U) (st : CrawlState U) : Prop where
  queue_ok : ∀ q ∈ st.queue, allowed q = true ∧ normalize q ∈ R ∧ normalize q ∉ st.processedP
  queue_nodup : (st.queue.map normalize).Nodup
  proc_nodup : st.processedP.Nodup
  proc_ok : ∀ n ∈ st.processedP, n ∈ R ∧ normalize n = n ∧ allowed n = true
  proc_closed : ∀ n ∈ st.processedP, ∀ l ∈ (links n).filter allowed,
    normalize l ∈ st.processedP ∨ ∃ x ∈ st.queue, normalize x = normalize l
  seed_cover : normalize seed ∈ st.processedP ∨ ∃ x ∈ st.queue, normalize x = normalize seed
  count_eq : st.count = st.processedP.length

theorem crawlInv_length_le {U : Type} [DecidableEq U] {normalize : U → U}
    {allowed : U → Bool} {links : U → List U} {seed : U} {R : Finset U}
    {st : CrawlState U}
    (hInv : CrawlInv normalize allowed links seed R st) :
    st.processedP.length ≤ R.card := by
  have hsub : st.processedP.toFinset ⊆ R := fun a ha =>
    (hInv.proc_ok a (List.mem_toFinset.mp ha)).1
  calc st.processedP.length = st.processedP.toFinset.card :=
        (List.toFinset_card_of_nodup hInv.proc_nodup).symm
    _ ≤ R.card := Finset.card_le_card hsub

theorem crawlStep_inv {U : Type} [DecidableEq U] (normalize : U → U)
    (allowed : U → Bool) (links : U → List U) (seed : U) (R : Finset U)
    (HN : ∀ u, normalize (normalize u) = normalize u)
    (HA : ∀ u, allowed (normalize u) = allowed u)
    (HL : ∀ u, links (normalize u) = links u)
    (HRclosed : ∀ n ∈ R, ∀ l ∈ (links n).filter allowed, normalize l ∈ R)
    (u : U) (qrest p : List U) (c : Nat)
    (hInv : CrawlInv normalize allowed links seed R ⟨u :: qrest, p, c⟩) :
    CrawlInv normalize allowed links seed R
      (crawlStep normalize allowed links ⟨u :: qrest, p, c⟩) ∧
    (crawlStep normalize allowed links ⟨u :: qrest, p, c⟩).processedP = p ++ [normalize u] ∧
    (crawlStep normalize allowed links ⟨u :: qrest, p, c⟩).count = c + 1 := by
  obtain ⟨hau, hnR, hnp⟩ := hInv.queue_ok u (List.mem_cons_self _ _)
  have han : allowed (normalize u) = true := (HA u).trans hau
  have hcond : ¬ (normalize u ∈ p ∨ ¬ allowed (normalize u)) := by
    rintro (h | h)
    · exact hnp h
    · exact h han
  rw [crawlStep_cons, if_neg hcond]
  set n := normalize u with hn
  set p' := p ++ [n] with hp'
  set ls := (links u).filter allowed with hls
  have hlinks_n : (links n).filter allowed = ls := by rw [hn, HL u]
  obtain ⟨ex, hex, hexprop⟩ := enqueueLinks_spec normalize p' ls qrest
  have hqrest_sub : ∀ x ∈ qrest, x ∈ enqueueLinks normalize p' qrest ls := by
    intro x hx
    rw [hex]
    exact List.mem_append_left _ hx
  have htail_nodup : (qrest.map normalize).Nodup := hInv.queue_nodup.of_cons
  have hn_notin_tail : n ∉ qrest.map normalize := by
    have := hInv.queue_nodup
    simp only [List.map_cons, List.nodup_cons] at this
    exact this.1
  have hmem_p' : ∀ a, a ∈ p' ↔ a ∈ p ∨ a = n := by
    intro a
    rw [hp', List.mem_append, List.mem_singleton]
  refine ⟨⟨?_, ?_, ?_, ?_, ?_, ?_, ?_⟩, rfl, rfl⟩
  · -- queue_ok
    intro x hx
    rw [hex] at hx
    rcases List.mem_append.mp hx with hx | hx
    · obtain ⟨hax, hxR, hxnp⟩ := hInv.queue_ok x (List.mem_cons_of_mem _ hx)
      refine ⟨hax, hxR, ?_⟩
      rw [hmem_p']
      rintro (h | h)
      · exact hxnp h
      · exact hn_notin_tail (h ▸ List.mem_map_of_mem normalize hx)
    · obtain ⟨hxl, hxnp⟩ := hexprop x hx
      have hxf := List.mem_filter.mp (hls ▸ hxl)
      refine ⟨hxf.2, ?_, hxnp⟩
      exact HRclosed n hnR x (hlinks_n ▸ hxl)
  · -- queue_nodup
    exact enqueueLinks_nodup normalize p' ls qrest htail_nodup
  · -- proc_nodup
    rw [hp']
    simp only [List.nodup_append, List.nodup_singleton, true_and]
    refine ⟨hInv.proc_nodup, ?_⟩
    intro a ha
    simp only [List.mem_singleton]
    intro hae
    exact hnp (hae ▸ ha)
  · -- proc_ok
    intro a ha
    rcases (hmem_p' a).mp ha with ha | rfl
    · exact hInv.proc_ok a ha
    · exact ⟨hnR, HN u, han⟩
  · -- proc_closed
    intro a ha l hl
    rcases (hmem_p' a).mp ha with ha | rfl
    · rcases hInv.proc_closed a ha l hl with h | ⟨x, hx, hxe⟩
      · exact Or.inl ((hmem_p' _).mpr (Or.inl h))
      · rcases List.mem_cons.mp hx with rfl | hx
        · exact Or.inl ((hmem_p' _).mpr (Or.inr hxe.symm))
        · exact Or.inr ⟨x, hqrest_sub x hx, hxe⟩
    · have hl' : l ∈ ls := hlinks_n ▸ hl
      rcases enqueueLinks_cover normalize p' ls qrest l hl' with h | h
      · exact Or.inl h
      · exact Or.inr h
  · -- seed_cover
    rcases hInv.seed_cover with h | ⟨x, hx, hxe⟩
    · exact Or.inl ((hmem_p' _).mpr (Or.inl h))
    · rcases List.mem_cons.mp hx with rfl | hx
      · exact Or.inl ((hmem_p' _).mpr (Or.inr hxe.symm))
      · exact Or.inr ⟨x, hqrest_sub x hx, hxe⟩
  · -- count_eq
    have := hInv.count_eq
    simp only at this
    simp [hp', this]

theorem crawl_reaches_end {U : Type} [DecidableEq U] (normalize : U → U)
    (allowed : U → Bool) (links : U → List U) (seed : U) (R : Finset U) (m : Int)
    (HN : ∀ u, normalize (normalize u) = normalize u)
    (HA : ∀ u, allowed (normalize u) = allowed u)
    (HL : ∀ u, links (normalize u) = links u)
    (HRclosed : ∀ n ∈ R, ∀ l ∈ (links n).filter allowed, normalize l ∈ R) :
    ∀ (fuel : Nat) (st : CrawlState U),
    CrawlInv normalize allowed links seed R st →
    R.card + 1 ≤ fuel + st.processedP.length →
    ¬ crawlGuard m (crawl normalize allowed links m fuel st) ∧
      CrawlInv normalize allowed links seed R (crawl normalize allowed links m fuel st) := by
  intro fuel
  induction fuel with
  | zero =>
    intro st hInv hle
    exact absurd (crawlInv_length_le hInv) (by omega)
  | succ fuel ih =>
    intro st hInv hle
    by_cases hg : crawlGuard m st
    · obtain ⟨u, qrest, hq⟩ : ∃ u qrest, st.queue = u :: qrest := by
        rcases hque : st.queue with _ | ⟨u, qrest⟩
        · exact absurd hque hg.1
        · exact ⟨u, qrest, rfl⟩
      obtain ⟨q0, p, c⟩ := st
      simp only at hq
      subst hq
      obtain ⟨hInv', hproc', -⟩ :=
        crawlStep_inv normalize allowed links seed R HN HA HL HRclosed u qrest p c hInv
      rw [crawl_succ, if_pos hg]
      apply ih _ hInv'
      have hlen : (crawlStep normalize allowed links ⟨u :: qrest, p, c⟩).processedP.length =
          p.length + 1 := by rw [hproc']; simp
      simp only at hle
      omega
    · rw [crawl_of_not_guard _ _ _ _ _ _ hg]
      exact ⟨hg, hInv⟩

theorem crawlStep_count_succ {U : Type} [DecidableEq U] (normalize : U → U)
    (allowed : U → Bool) (links : U → List U) (u : U) (qrest p : List U) (c : Nat) :
    (crawlStep normalize allowed links ⟨u :: qrest, p, c⟩).count = c + 1 := by
  rw [crawlStep_cons]
  by_cases h : normalize u ∈ p ∨ ¬ allowed (normalize u)
  · rw [if_pos h]
  · rw [if_neg h]

theorem crawl_count_le {U : Type} [DecidableEq U] (normalize : U → U)
    (allowed : U → Bool) (links : U → List U) (m : Int) (hm : 0 ≤ m) :
    ∀ (fuel : Nat) (st : CrawlState U), (st.count : Int) ≤ m →
    ((crawl normalize allowed links m fuel st).count : Int) ≤ m := by
  intro fuel
  induction fuel with
  | zero => intro st h; exact h
  | succ fuel ih =>
    intro st h
    by_cases hg : crawlGuard m st
    · rw [crawl_succ, if_pos hg]
      apply ih
      have hlt : (st.count : Int) < m := by
        rcases hg.2 with h1 | h1
        · omega
        · exact h1
      obtain ⟨u, qrest, hq⟩ : ∃ u qrest, st.queue = u :: qrest := by
        rcases hque : st.queue with _ | ⟨u, qrest⟩
        · exact absurd hque hg.1
        · exact ⟨u, qrest, rfl⟩
      obtain ⟨q0, p, c⟩ := st
      simp only at hq
      subst hq
      rw [crawlStep_count_succ]
      simp only at hlt
      push_cast
      omega
    · rw [crawl_of_not_guard _ _ _ _ _ _ hg]
      exact h

theorem crawl_final_complete {U : Type} [DecidableEq U] (normalize : U → U)
    (allowed : U → Bool) (links : U → List U) (seed : U) (R : Finset U)
    (HRmin : ∀ S : Finset U, normalize seed ∈ S →
      (∀ n ∈ S, ∀ l ∈ (links n).filter allowed, normalize l ∈ S) → R ⊆ S)
    (st : CrawlState U)
    (hInv : CrawlInv normalize allowed links seed R st) (hq : st.queue = []) :
    (∀ n, n ∈ st.processedP ↔ n ∈ R) ∧ st.processedP.length = R.card := by
  have hseed : normalize seed ∈ st.processedP := by
    rcases hInv.seed_cover with h | ⟨x, hx, -⟩
    · exact h
    · rw [hq] at hx; cases hx
  have hclosed : ∀ n ∈ st.processedP.toFinset, ∀ l ∈ (links n).filter allowed,
      normalize l ∈ st.processedP.toFinset := by
    intro n hn l hl
    rcases hInv.proc_closed n (List.mem_toFinset.mp hn) l hl with h | ⟨x, hx, -⟩
    · exact List.mem_toFinset.mpr h
    · rw [hq] at hx; cases hx
  have hsup : R ⊆ st.processedP.toFinset := HRmin _ (List.mem_toFinset.mpr hseed) hclosed
  have hsub : st.processedP.toFinset ⊆ R := fun a ha =>
    (hInv.proc_ok a (List.mem_toFinset.mp ha)).1
  have heq : st.processedP.toFinset = R := Finset.Subset.antisymm hsub hsup
  constructor
  · intro n
    rw [← List.mem_toFinset, heq]
  · rw [← List.toFinset_card_of_nodup hInv.proc_nodup, heq]

theorem crawlInv_init {U : Type} [DecidableEq U] (normalize : U → U)
    (allowed : U → Bool) (links : U → List U) (seed : U) (R : Finset U)
    (Hseed : allowed seed = true) (HRseed : normalize seed ∈ R) :
    CrawlInv normalize allowed links seed R (initState seed) := by
  refine ⟨?_, ?_, ?_, ?_, ?_, ?_, ?_⟩
  · intro q hq
    rcases List.mem_singleton.mp hq with rfl
    exact ⟨Hseed, HRseed, by simp [initState]⟩
  · simp [initState]
  · simp [initState]
  · intro n hn
    simp [initState] at hn
  · intro n hn
    simp [initState] at hn
  · exact Or.inr ⟨seed, by simp [initState], rfl⟩
  · rfl

/-- C3: with a positive page budget `N` and a reachable normalized page set
`R` (least link-closed set containing the seed), the crawl loop runs
`crawlStep` exactly `min N |R|` times, each processing one page, and then
the guard fails and the loop is stable under extra fuel (termination). -/
theorem c3_budget_respected {U : Type} [DecidableEq U] (normalize : U → U)
    (allowed : U → Bool) (links : U → List U) (seed : U) (R : Finset U) (N : Int)
    (HN : ∀ u, normalize (normalize u) = normalize u)
    (HA : ∀ u, allowed (normalize u) = allowed u)
    (HL : ∀ u, links (normalize u) = links u)
    (Hseed : allowed seed = true)
    (HRseed : normalize seed ∈ R)
    (HRclosed : ∀ n ∈ R, ∀ l ∈ (links n).filter allowed, normalize l ∈ R)
    (HRmin : ∀ S : Finset U, normalize seed ∈ S →
      (∀ n ∈ S, ∀ l ∈ (links n).filter allowed, normalize l ∈ S) → R ⊆ S)
    (hN : 0 < N) :
    ((crawl normalize allowed links N (R.card + 1) (initState seed)).count : Int) =
      min N (R.card : Int) ∧
    ∀ f : Nat, R.card + 1 ≤ f →
      crawl normalize allowed links N f (initState seed) =
        crawl normalize allowed links N (R.card + 1) (initState seed) := by
  have hInv0 := crawlInv_init normalize allowed links seed R Hseed HRseed
  obtain ⟨hng, hInvF⟩ := crawl_reaches_end normalize allowed links seed R N
    HN HA HL HRclosed (R.card + 1) (initState seed) hInv0 (by simp [initState])
  have hstable : ∀ f : Nat, R.card + 1 ≤ f →
      crawl normalize allowed links N f (initState seed) =
        crawl normalize allowed links N (R.card + 1) (initState seed) := by
    intro f hf
    have hsplit : f = (R.card + 1) + (f - (R.card + 1)) := by omega
    rw [hsplit, crawl_add]
    exact crawl_of_not_guard _ _ _ _ _ _ hng
  refine ⟨?_, hstable⟩
  set fin := crawl normalize allowed links N (R.card + 1) (initState seed) with hfin
  have hcle : (fin.count : Int) ≤ N :=
    crawl_count_le normalize allowed links N (le_of_lt hN) _ _
      (by simp only [initState]; omega)
  have hcount : fin.count = fin.processedP.length := hInvF.count_eq
  have hlenle : fin.processedP.length ≤ R.card := crawlInv_length_le hInvF
  by_cases hq : fin.queue = []
  · obtain ⟨-, hlen⟩ := crawl_final_complete normalize allowed links seed R HRmin fin hInvF hq
    have hcR : fin.count = R.card := hcount.trans hlen
    have hRN : (R.card : Int) ≤ N := by rw [← hcR]; exact hcle
    rw [min_eq_right hRN, hcR]
  · have hB : ¬ (N = -1 ∨ (fin.count : Int) < N) := fun hB => hng ⟨hq, hB⟩
    push_neg at hB
    have hNc : N ≤ (fin.count : Int) := hB.2
    have hcN : (fin.count : Int) = N := le_antisymm hcle hNc
    have hNR : N ≤ (R.card : Int) := by
      calc N = (fin.count : Int) := hcN.symm
        _ = (fin.processedP.length : Int) := by exact_mod_cast congrArg Nat.cast hcount
        _ ≤ (R.card : Int) := by exact_mod_cast hlenle
    rw [min_eq_left hNR, hcN]

/-- Witness for `c3_budget_respected`: a two-page graph (`0 → 1`) crawled
with budget `N = 1` processes exactly `min 1 2 = 1` page. -/
theorem c3_budget_respected_witness :
    ((crawl (id : Nat → Nat) (fun _ => true) (fun n => if n = 0 then [1] else [])
        1 (({0, 1} : Finset Nat).card + 1) (initState 0)).count : Int) =
      min 1 ((({0, 1} : Finset Nat).card : Nat) : Int) :=
  (c3_budget_respected (id : Nat → Nat) (fun _ => true)
    (fun n => if n = 0 then [1] else []) 0 ({0, 1} : Finset Nat) 1
    (fun _ => rfl) (fun _ => rfl) (fun _ => rfl) rfl (by decide) (by decide)
    (fun S h0 hc => by
      have h1 : (1 : Nat) ∈ S := hc 0 h0 1 (by decide)
      intro a ha
      rcases Finset.mem_insert.mp ha with rfl | ha
      · exact h0
      · rw [Finset.mem_singleton] at ha
        exact ha ▸ h1)
    (by decide)).1

/-- C4: with the unlimited budget `-1` and a finite reachable normalized
page set `R`, the crawl terminates (the loop becomes stable once the
queue empties) having processed every reachable page exactly once: the
processed list is duplicate-free and its members are exactly `R`. -/
theorem c4_unlimited_termination {U : Type} [DecidableEq U] (normalize : U → U)
    (allowed : U → Bool) (links : U → List U) (seed : U) (R : Finset U)
    (HN : ∀ u, normalize (normalize u) = normalize u)
    (HA : ∀ u, allowed (normalize u) = allowed u)
    (HL : ∀ u, links (normalize u) = links u)
    (Hseed : allowed seed = true)
    (HRseed : normalize seed ∈ R)
    (HRclosed : ∀ n ∈ R, ∀ l ∈ (links n).filter allowed, normalize l ∈ R)
    (HRmin : ∀ S : Finset U, normalize seed ∈ S →
      (∀ n ∈ S, ∀ l ∈ (links n).filter allowed, normalize l ∈ S) → R ⊆ S) :
    (crawl normalize allowed links (-1) (R.card + 1) (initState seed)).processedP.Nodup ∧
    (∀ n, n ∈ (crawl normalize allowed links (-1) (R.card + 1) (initState seed)).processedP ↔
      n ∈ R) ∧
    (crawl normalize allowed links (-1) (R.card + 1) (initState seed)).count = R.card ∧
    ∀ f : Nat, R.card + 1 ≤ f →
      crawl normalize allowed links (-1) f (initState seed) =
        crawl normalize allowed links (-1) (R.card + 1) (initState seed) := by
  have hInv0 := crawlInv_init normalize allowed links seed R Hseed HRseed
  obtain ⟨hng, hInvF⟩ := crawl_reaches_end normalize allowed links seed R (-1)
    HN HA HL HRclosed (R.card + 1) (initState seed) hInv0 (by simp [initState])
  have hq : (crawl normalize allowed links (-1) (R.card + 1) (initState seed)).queue = [] := by
    by_contra hq
    exact hng ⟨hq, Or.inl rfl⟩
  obtain ⟨hiff, hlen⟩ := crawl_final_complete normalize allowed links seed R HRmin _ hInvF hq
  refine ⟨hInvF.proc_nodup, hiff, hInvF.count_eq.trans hlen, ?_⟩
  intro f hf
  have hsplit : f = (R.card + 1) + (f - (R.card + 1)) := by omega
  rw [hsplit, crawl_add]
  exact crawl_of_not_guard _ _ _ _ _ _ hng

/-- Witness for `c4_unlimited_termination`: the two-page graph crawled with
budget `-1` processes both pages exactly once. -/
theorem c4_unlimited_termination_witness :
    (crawl (id : Nat → Nat) (fun _ => true) (fun n => if n = 0 then [1] else [])
        (-1) (({0, 1} : Finset Nat).card + 1) (initState 0)).count =
      ({0, 1} : Finset Nat).card :=
  (c4_unlimited_termination (id : Nat → Nat) (fun _ => true)
    (fun n => if n = 0 then [1] else []) 0 ({0, 1} : Finset Nat)
    (fun _ => rfl) (fun _ => rfl) (fun _ => rfl) rfl (by decide) (by decide)
    (fun S h0 hc => by
      have h1 : (1 : Nat) ∈ S := hc 0 h0 1 (by decide)
      intro a ha
      rcases Finset.mem_insert.mp ha with rfl | ha
      · exact h0
      · rw [Finset.mem_singleton] at ha
        exact ha ▸ h1)).2.2.1

/-! ### The allow-list gates (C10) -/

/-- `downloadResource` as called by the scraper: the gate normalizes the
resource URL and checks `isAllowedUrl` on the normalized URL before any
filesystem or network effect. -/
def downloadResourceS (domain resourceUrl : String) (seen : Bool) (env : DLEnv) : DLTrace :=
  downloadResource (isAllowedUrlS domain (normalizeUrlS resourceUrl)) seen env

/-- The effect environment of one masked-SVG download in
`downloadMaskedSvgResources`. -/
structure SvgEnv where
  existsLocally : Bool
  mkdirOk : Bool
  fetchOk : Bool
  httpOk : Bool
deriving DecidableEq, Repr

/-- The per-URL body of the download loop in `downloadMaskedSvgResources`
(`scraper.js` lines 1718-1773), returning how many files it writes: icon
URLs only, gated by `isAllowedUrl`, skipped when the mapping fails or the
file already exists, then fetched and written once. -/
def downloadMaskedSvg (domain url : String) (env : SvgEnv) : Nat :=
  if !(strContains url "/duotone/" || strContains url "/regular/" ||
      strContains url "/solid/" || strContains url "/brands/") then 0
  else if !(isAllowedUrlS domain url) then 0
  else
    match getRelativePathS domain url with
    | none => 0
    | some rel =>
      if rel = "" then 0
      else if env.existsLocally then 0
      else if !env.mkdirOk then 0
      else if !env.fetchOk then 0
      else if !env.httpOk then 0
      else 1

theorem crawlStep_processed_allowed {U : Type} [DecidableEq U] (normalize : U → U)
    (allowed : U → Bool) (links : U → List U) (st : CrawlState U) :
    ∀ n ∈ (crawlStep normalize allowed links st).processedP,
      n ∈ st.processedP ∨ allowed n = true := by
  obtain ⟨q, p, c⟩ := st
  cases q with
  | nil => exact fun n hn => Or.inl hn
  | cons u qrest =>
    intro n hn
    rw [crawlStep_cons] at hn
    by_cases h : normalize u ∈ p ∨ ¬ allowed (normalize u)
    · rw [if_pos h] at hn
      exact Or.inl hn
    · rw [if_neg h] at hn
      simp only at hn
      rcases List.mem_append.mp hn with hn | hn
      · exact Or.inl hn
      · rcases List.mem_singleton.mp hn with rfl
        push_neg at h
        exact Or.inr (Bool.of_not_eq_false (by simpa using h.2))

theorem crawl_processed_allowed {U : Type} [DecidableEq U] (normalize : U → U)
    (allowed : U → Bool) (links : U → List U) (m : Int) :
    ∀ (fuel : Nat) (st : CrawlState U),
    ∀ n ∈ (crawl normalize allowed links m fuel st).processedP,
      n ∈ st.processedP ∨ allowed n = true := by
  intro fuel
  induction fuel with
  | zero => exact fun st n hn => Or.inl hn
  | succ fuel ih =>
    intro st n hn
    by_cases hg : crawlGuard m st
    · rw [crawl_succ, if_pos hg] at hn
      rcases ih _ n hn with hn' | hn'
      · exact crawlStep_processed_allowed normalize allowed links st n hn'
      · exact Or.inr hn'
    · rw [crawl_of_not_guard _ _ _ _ _ _ hg] at hn
      exact Or.inl hn

/-- C10: the allow-list invariant.  `isAllowedUrl` accepts exactly the URLs
whose hostname is the configured domain or one of the three hard-coded CDN
hosts; a resource download writes a file only if its normalized URL passes
that test; a masked-SVG download writes a file only if its URL passes it;
and the crawl loop only ever adds a page to the processed set if the
allow-list predicate accepts it. -/
theorem c10_allowlist_gate (domain s : String) :
    (isAllowedUrlS domain s = true ↔ ∃ u, parseHttpUrl s = some u ∧
      (u.host = domain ∨ u.host = "mintlify.b-cdn.net" ∨
        u.host = "mintlify.s3.us-west-1.amazonaws.com" ∨ u.host = "cdn.jsdelivr.net")) ∧
    (∀ (seen : Bool) (env : DLEnv), 0 < (downloadResourceS domain s seen env).writes →
      isAllowedUrlS domain (normalizeUrlS s) = true) ∧
    (∀ env : SvgEnv, 0 < downloadMaskedSvg domain s env →
      isAllowedUrlS domain s = true) ∧
    (∀ (links : String → List String) (m : Int) (fuel : Nat) (st : CrawlState String),
      ∀ n ∈ (crawl normalizeUrlS (isAllowedUrlS domain) links m fuel st).processedP,
        n ∈ st.processedP ∨ isAllowedUrlS domain n = true) := by
  refine ⟨?_, ?_, ?_, ?_⟩
  · unfold isAllowedUrlS
    cases hp : parseHttpUrl s with
    | none =>
      simp only [Bool.false_eq_true, false_iff]
      rintro ⟨u, hu, -⟩
      exact Option.noConfusion hu
    | some u =>
      simp only [allowedDomains, List.any_eq_true, List.mem_cons, List.not_mem_nil, or_false]
      constructor
      · rintro ⟨d, hd, hde⟩
        have hde' : u.host = d := by simpa [eq_comm] using hde
        refine ⟨u, rfl, ?_⟩
        rcases hd with rfl | rfl | rfl | rfl | rfl <;> simp [hde']
      · rintro ⟨u', hu', hcase⟩
        have huu : u' = u := ((Option.some.injEq _ _).mp hu').symm
        subst huu
        rcases hcase with h | h | h | h
        · exact ⟨domain, Or.inl rfl, by simp [h]⟩
        · exact ⟨_, Or.inr (Or.inl rfl), by simp [h]⟩
        · exact ⟨_, Or.inr (Or.inr (Or.inl rfl)), by simp [h]⟩
        · exact ⟨_, Or.inr (Or.inr (Or.inr (Or.inl rfl))), by simp [h]⟩
  · intro seen env hw
    by_contra hA
    have hA' : isAllowedUrlS domain (normalizeUrlS s) = false :=
      Bool.eq_false_iff.mpr hA
    unfold downloadResourceS at hw
    rw [hA'] at hw
    have : downloadResource false seen env = ⟨.skipped, 0, 0⟩ := by
      unfold downloadResource
      simp
    rw [this] at hw
    exact Nat.lt_irrefl 0 hw
  · intro env hw
    by_contra hA
    have hA' : isAllowedUrlS domain s = false := Bool.eq_false_iff.mpr hA
    unfold downloadMaskedSvg at hw
    rw [hA'] at hw
    simp at hw
  · intro links m fuel st n hn
    exact crawl_processed_allowed normalizeUrlS (isAllowedUrlS domain) links m fuel st n hn

/-- Witness for `c10_allowlist_gate`: a successful download of an allowed
resource wrote a file, and its normalized URL indeed passes the gate. -/
theorem c10_allowlist_gate_witness :
    isAllowedUrlS "docs.example.com" (normalizeUrlS "https://docs.example.com/a.png") = true :=
  (c10_allowlist_gate "docs.example.com" "https://docs.example.com/a.png").2.1 false
    ⟨true, true, true, true, none, none⟩ (by decide)

/-! ### Content Rewriter: `updateHtmlUrls` (`scraper.js` lines 227-330) -/

/-- ASCII lowercase of a string (`String.prototype.toLowerCase` for the
ASCII attribute names involved). -/
def asciiLower (s : String) : String := String.mk (s.data.map Char.toLower)

/-- JavaScript `\s` for the ASCII whitespace the srcset splitting meets. -/
def isWsChar (c : Char) : Bool :=
  c = ' ' || c = '\t' || c = '\n' || c = '\r' || c = '\x0b' || c = '\x0c'

/-- Drop leading whitespace. -/
def trimStartWs (s : List Char) : List Char := s.dropWhile isWsChar

/-- Drop trailing whitespace. -/
def trimEndWs (s : List Char) : List Char := (s.reverse.dropWhile isWsChar).reverse

/-- `String.prototype.trim` (ASCII whitespace). -/
def trimWs (s : List Char) : List Char := trimEndWs (trimStartWs s)

/-- Joining with a multi-character separator. -/
def joinSepL (sep : List Char) : List (List Char) → List Char
  | [] => []
  | [p] => p
  | p :: q :: ps => p ++ sep ++ joinSepL sep (q :: ps)

/-- Interior parts of `split(/\s*,\s*/)`: each separator comma consumes the
whitespace around it, so middle parts are trimmed on both sides and the
last part only on its left. -/
def splitCommaWsAux : List (List Char) → List (List Char)
  | [] => []
  | [last] => [trimStartWs last]
  | mid :: rest => trimWs mid :: splitCommaWsAux rest

/-- `String.prototype.split(/\s*,\s*/)`: split at every comma, with the
whitespace adjacent to each comma consumed by the separator. -/
def splitCommaWs (s : List Char) : List (List Char) :=
  match splitChar ',' s with
  | [] => [[]]
  | [p] => [p]
  | p :: ps => trimEndWs p :: splitCommaWsAux ps

/-- `String.prototype.split(/\s+/)`: split on maximal whitespace runs (a
leading run yields an empty first part, as in JavaScript). -/
def wsSplitGo (prevWs : Bool) (cur : List Char) (acc : List (List Char)) :
    List Char → List (List Char)
  | [] => (cur.reverse :: acc).reverse
  | c :: rest =>
    if isWsChar c then
      if prevWs then wsSplitGo true cur acc rest
      else wsSplitGo true [] (cur.reverse :: acc) rest
    else wsSplitGo false (c :: cur) acc rest

/-- See `wsSplitGo`. -/
def wsSplit (s : List Char) : List (List Char) := wsSplitGo false [] [] s

/-- Is the value treated as an absolute URL by the rewriter
(`http:`, `https:` or protocol-relative `//`)? -/
def isAbsoluteish (url : String) : Bool :=
  strStarts url "http:" || strStarts url "https:" || strStarts url "//"

/-- Protocol-relative URLs are upgraded to `https:` before mapping. -/
def absCandidate (url : String) : String :=
  if strStarts url "//" then "https:" ++ url else url

/-- The absolute-URL arm shared by the rewriter's branches: upgrade
protocol-relative URLs, keep the original when the URL is not
allow-listed or the mapping fails or is empty (JavaScript truthiness of
`relativePath`), otherwise yield the mapped local path. -/
def mapAbsolute (domain url : String) : Option String :=
  let absoluteUrl := absCandidate url
  if isAllowedUrlS domain absoluteUrl then
    match getRelativePathS domain absoluteUrl with
    | some rel => if rel = "" then none else some rel
    | none => none
  else none

/-- The relative-URL arm: split on `/`, make each part filesystem-safe,
rejoin. -/
def relativeSafeUrl (url : String) : String :=
  String.mk (joinSep '/' ((splitChar '/' url.data).map (fun p => (safePath (String.mk p)).data)))

/-- One srcset entry: split off the URL from its descriptors, rewrite the
URL if it is an allow-listed absolute URL, keep the original part
otherwise. -/
def rewriteSrcsetPart (domain : String) (part : List Char) : List Char :=
  let toks := wsSplit (trimWs part)
  let srcUrl := String.mk (toks.headD [])
  let descriptors := toks.tail
  if isAbsoluteish srcUrl then
    match mapAbsolute domain srcUrl with
    | some rel => joinSepL [' '] (rel.data :: descriptors)
    | none => part
  else part

/-- The srcset arm: split the value on commas, process each entry, rejoin
with `', '`. -/
def rewriteSrcset (domain url : String) : String :=
  String.mk (joinSepL ", ".data ((splitCommaWs url.data).map (rewriteSrcsetPart domain)))

/-- The replacer of the attribute regex in `updateHtmlUrls`, reduced to the
produced value: `some v` means the match is replaced by `attr="v"`;
`none` means the original match text is kept. -/
def rewriteAttrValue (domain attr url : String) : Option String :=
  if strStarts url "data:" then none
  else if asciiLower attr = "srcset" then some (rewriteSrcset domain url)
  else if isAbsoluteish url then mapAbsolute domain url
  else
    let safeUrl := relativeSafeUrl url
    some (if attr = "href" ∧ ¬ strContains safeUrl "." ∧ ¬ strEnds safeUrl "/" then
      safeUrl ++ ".html" else safeUrl)

/-- The full replacement text for one attribute match: rewritten values are
emitted with double quotes; kept matches preserve their original quotes. -/
def rewriteAttrMatch (domain attr : String) (q1 : Char) (url : String) (q2 : Char) : String :=
  match rewriteAttrValue domain attr url with
  | some v => attr ++ "=\"" ++ v ++ "\""
  | none => attr ++ "=" ++ String.mk (q1 :: (url.data ++ [q2]))

/-- The URL-carrying attribute names of the rewriter's regex, in alternation
order. -/
def attrNamesL : List (List Char) :=
  ["src".data, "href".data, "poster".data, "data".data, "background".data,
    "srcset".data, "content".data]

/-- Try to match `name=["']body["']` (name case-insensitive, body nonempty
and quote-free, closing quote either kind) at the start of `s`.  Returns
the matched attribute text, the quotes, the body and the match length. -/
def tryAttrAt (name : List Char) (s : List Char) : Option (String × Char × String × Char × Nat) :=
  if (s.take name.length).map Char.toLower = name then
    match s.drop name.length with
    | '=' :: q1 :: rest2 =>
      if q1 = '"' || q1 = '\'' then
        let body := rest2.takeWhile (fun c => !(c = '"' || c = '\''))
        if body.isEmpty then none
        else
          match rest2.drop body.length with
          | q2 :: _ =>
            some (String.mk (s.take name.length), q1, String.mk body, q2,
              name.length + 2 + body.length + 1)
          | [] => none
      else none
    | _ => none
  else none

/-- Leftmost-alternation attribute match at the start of `s`. -/
def matchAttrAt (s : List Char) : Option (String × Char × String × Char × Nat) :=
  attrNamesL.foldr
    (fun name acc =>
      match tryAttrAt name s with
      | some r => some r
      | none => acc)
    none

/-- The global attribute-regex replacement: scan left to right, replace each
match and continue after it.  The fuel is the remaining input length, so
it never runs out. -/
def scanAttrs (domain : String) : Nat → List Char → List Char
  | 0, s => s
  | _ + 1, [] => []
  | fuel + 1, c :: rest =>
    match matchAttrAt (c :: rest) with
    | some (attr, q1, url, q2, len) =>
      (rewriteAttrMatch domain attr q1 url q2).data ++
        scanAttrs domain fuel ((c :: rest).drop len)
    | none => c :: scanAttrs domain fuel rest

/-- The index of the last occurrence of `pat` in `s`, if any. -/
def lastOccurrence (pat s : List Char) : Option Nat :=
  ((List.range (s.length + 1)).filter (fun i => List.isPrefixOf pat (s.drop i))).getLast?

/-- After `url(`, parse an optionally quoted nonempty body followed by `)`
(the greedy semantics of `['"]?([^'")]+)['"]?\)`).  Returns the body and
the number of characters consumed. -/
def parseUrlBody (t : List Char) : Option (List Char × Nat) :=
  let body := t.takeWhile (fun c => !(c = '\'' || c = '"' || c = ')'))
  if body.isEmpty then none
  else
    match t.drop body.length with
    | ')' :: _ => some (body, body.length + 1)
    | '\'' :: ')' :: _ => some (body, body.length + 2)
    | '"' :: ')' :: _ => some (body, body.length + 2)
    | _ => none

/-- See `parseUrlBody`; also consumes an optional opening quote. -/
def parseUrlCall (after : List Char) : Option (List Char × Nat) :=
  match after with
  | [] => none
  | c :: t =>
    if c = '\'' || c = '"' then (parseUrlBody t).map (fun r => (r.1, r.2 + 1))
    else parseUrlBody after

/-- Match the inline-style regex
`style=["']([^"']*)url\(['"]?([^'")]+)['"]?\)([^"']*)["']` at the start of
`s`: the greedy prefix reaches the last `url(` of the quote-free run.
Returns the style prefix, the URL, the suffix and the match length. -/
def matchStyleAt (s : List Char) : Option (List Char × String × List Char × Nat) :=
  if (s.take 6).map Char.toLower = "style=".data then
    match s.drop 6 with
    | q1 :: rest2 =>
      if q1 = '"' || q1 = '\'' then
        let run := rest2.takeWhile (fun c => !(c = '"' || c = '\''))
        match lastOccurrence "url(".data run with
        | none => none
        | some i =>
          if i + 4 ≤ run.length then
            let pre := run.take i
            let after := rest2.drop (i + 4)
            match parseUrlCall after with
            | none => none
            | some (body, n) =>
              let rem := after.drop n
              let suffix := rem.takeWhile (fun c => !(c = '"' || c = '\''))
              match rem.drop suffix.length with
              | _ :: _ =>
                some (pre, String.mk body, suffix, 6 + 1 + i + 4 + n + suffix.length + 1)
              | [] => none
          else none
      else none
    | [] => none
  else none

/-- The replacer of the style regex: rewrite allow-listed absolute URLs to
their mapped path, make relative URLs filesystem-safe, and keep the match
otherwise.  Replacements always emit `style="…url('…')…"`. -/
def rewriteStyleMatch (domain : String) (pre : List Char) (url : String)
    (suffix : List Char) (orig : List Char) : List Char :=
  if strStarts url "data:" then orig
  else if isAbsoluteish url then
    match mapAbsolute domain url with
    | some rel => "style=\"".data ++ pre ++ "url('".data ++ rel.data ++ "')".data ++ suffix ++ ['"']
    | none => orig
  else
    "style=\"".data ++ pre ++ "url('".data ++ (relativeSafeUrl url).data ++ "')".data ++
      suffix ++ ['"']

/-- The global style-regex replacement pass. -/
def scanStyle (domain : String) : Nat → List Char → List Char
  | 0, s => s
  | _ + 1, [] => []
  | fuel + 1, c :: rest =>
    match matchStyleAt (c :: rest) with
    | some (pre, url, suffix, len) =>
      rewriteStyleMatch domain pre url suffix ((c :: rest).take len) ++
        scanStyle domain fuel ((c :: rest).drop len)
    | none => c :: scanStyle domain fuel rest

/-- `updateHtmlUrls` from `scraper.js`: the attribute pass followed by the
inline-style pass. -/
def updateHtmlUrls (domain content : String) : String :=
  let pass1 := scanAttrs domain content.data.length content.data
  String.mk (scanStyle domain pass1.length pass1)

/-! ### Stylesheet rewriting: `processCssFiles` (`scraper.js` lines 586-727) -/

/-- Length of the common segment prefix (`path.relative`'s shared root). -/
def commonPrefixLen : List String → List String → Nat
  | a :: as, b :: bs => if a = b then commonPrefixLen as bs + 1 else 0
  | _, _ => 0

/-- `path.relative` on already-split POSIX segments: climb out of the
uncommon part of `fromSegs` with `..` and descend into `toSegs`. -/
def pathRelative (fromSegs toSegs : List String) : List String :=
  List.replicate (fromSegs.length - commonPrefixLen fromSegs toSegs) ".." ++
    toSegs.drop (commonPrefixLen fromSegs toSegs)

/-- The path segments of a slash-separated path (empty segments vanish, as
under `path.join`/`path.relative` normalization). -/
def segsOf (s : String) : List String :=
  ((splitChar '/' s.data).filter (fun p => !p.isEmpty)).map String.mk

/-- The reference text `processCssFiles` writes into a stylesheet for a
resource whose mapped path (relative to the output root) is `localPath`,
when the stylesheet's directory is `cssDir`: `path.relative` of the two,
joined with forward slashes. -/
def cssEmittedRef (cssDir : List String) (localPath : String) : String :=
  String.mk (joinSep '/' ((pathRelative cssDir (segsOf localPath)).map String.data))

/-- The URL resolution in `processCssFiles`: absolute references are kept,
root-relative ones are resolved against the site root, and other
references against the stylesheet's directory. -/
def cssFullUrl (domain : String) (cssDir : List String) (urlPath : String) : String :=
  if strStarts urlPath "http" then urlPath
  else if strStarts urlPath "/" then "https://" ++ domain ++ urlPath
  else
    "https://" ++ domain ++ "/" ++
      String.mk (joinSep '/' (cssDir.map String.data)) ++ "/" ++ urlPath

/-- The per-reference body of the `url()` loop in `processCssFiles`: skip
data URLs, resolve the reference, map it, and emit the
stylesheet-relative reference; `none` when the source leaves the
reference untouched. -/
def processCssUrl (domain : String) (cssDir : List String) (urlPath : String) : Option String :=
  if urlPath = "" || strStarts urlPath "data:" then none
  else
    match getRelativePathS domain (cssFullUrl domain cssDir urlPath) with
    | none => none
    | some localResourcePath =>
      if localResourcePath = "" then none
      else some (cssEmittedRef cssDir localResourcePath)

theorem splitChar_ne_nil (sep : Char) (s : List Char) : splitChar sep s ≠ [] := by
  cases s with
  | nil => simp [splitChar]
  | cons c rest =>
    unfold splitChar
    cases splitChar sep rest with
    | nil => simp
    | cons p ps =>
      by_cases hc : c = sep
      · simp [hc]
      · simp [hc]

theorem splitChar_cons_eq (sep c : Char) (rest : List Char) (p : List Char)
    (ps : List (List Char)) (hsp : splitChar sep rest = p :: ps) :
    splitChar sep (c :: rest) = if c = sep then [] :: p :: ps else (c :: p) :: ps := by
  unfold splitChar
  rw [hsp]

theorem splitChar_not_mem (sep : Char) (s : List Char) :
    ∀ part ∈ splitChar sep s, sep ∉ part := by
  induction s with
  | nil =>
    intro part hp
    rcases List.mem_singleton.mp hp with rfl
    exact List.not_mem_nil _
  | cons c rest ih =>
    intro part hp
    rcases hsp : splitChar sep rest with _ | ⟨p, ps⟩
    · exact absurd hsp (splitChar_ne_nil sep rest)
    · rw [splitChar_cons_eq sep c rest p ps hsp] at hp
      by_cases hc : c = sep
      · rw [if_pos hc] at hp
        rcases List.mem_cons.mp hp with rfl | hp
        · exact List.not_mem_nil _
        · exact ih part (hsp ▸ hp)
      · rw [if_neg hc] at hp
        rcases List.mem_cons.mp hp with rfl | hp
        · intro hmem
          rcases List.mem_cons.mp hmem with rfl | hmem
          · exact hc rfl
          · exact ih p (hsp ▸ List.mem_cons_self _ _) hmem
        · exact ih part (hsp ▸ List.mem_cons_of_mem _ hp)

theorem strStarts_mk_join_of_clean (L : List (List Char))
    (h : ∀ x ∈ L, x ≠ [] ∧ '/' ∉ x) :
    strStarts (String.mk (joinSep '/' L)) "/" = false := by
  cases L with
  | nil => rfl
  | cons p ps =>
    obtain ⟨hne, hnm⟩ := h p (List.mem_cons_self _ _)
    cases p with
    | nil => exact absurd rfl hne
    | cons a p' =>
      have ha : a ≠ '/' := fun hae => hnm (hae ▸ List.mem_cons_self _ _)
      have hdata : joinSep '/' ((a :: p') :: ps) = a :: (p' ++
          (match ps with
            | [] => []
            | q :: qs => '/' :: joinSep '/' (q :: qs))) := by
        cases ps with
        | nil => simp [joinSep]
        | cons q qs => simp [joinSep]
      unfold strStarts
      rw [hdata]
      show List.isPrefixOf ['/'] (a :: _) = false
      simp [List.isPrefixOf, Ne.symm ha]

/-- C5, amended, stylesheet half: the reference `processCssFiles` emits is
computed with `path.relative` from the stylesheet's own directory and is
never anchored at the output root (it never starts with `/`). -/
theorem c5_amended (domain : String) (cssDir : List String) (urlPath out : String)
    (h : processCssUrl domain cssDir urlPath = some out) :
    out = cssEmittedRef cssDir
        ((getRelativePathS domain (cssFullUrl domain cssDir urlPath)).getD "") ∧
    strStarts out "/" = false := by
  unfold processCssUrl at h
  split at h
  · exact Option.noConfusion h
  · rcases hm : getRelativePathS domain (cssFullUrl domain cssDir urlPath) with _ | localPath
    · rw [hm] at h
      exact Option.noConfusion h
    · rw [hm] at h
      have h' : (if localPath = "" then none else some (cssEmittedRef cssDir localPath)) =
          some out := h
      by_cases hlp : localPath = ""
      · rw [if_pos hlp] at h'
        exact Option.noConfusion h'
      · rw [if_neg hlp] at h'
        have hout : out = cssEmittedRef cssDir localPath :=
          ((Option.some.injEq _ _).mp h').symm
        refine ⟨by simpa using hout, ?_⟩
        rw [hout]
        unfold cssEmittedRef
        apply strStarts_mk_join_of_clean
        intro x hx
        obtain ⟨seg, hseg, hxe⟩ := List.mem_map.mp hx
        unfold pathRelative at hseg
        rcases List.mem_append.mp hseg with hseg | hseg
        · have : seg = ".." := List.eq_of_mem_replicate hseg
          subst this
          subst hxe
          exact ⟨by decide, by decide⟩
        · have hseg' : seg ∈ segsOf localPath := List.mem_of_mem_drop hseg
          unfold segsOf at hseg'
          obtain ⟨part, hpart, hpe⟩ := List.mem_map.mp hseg'
          have hpf := List.mem_filter.mp hpart
          have hne : part ≠ [] := by
            intro hcon
            rw [hcon] at hpf
            simp at hpf
          have hnm : '/' ∉ part := splitChar_not_mem '/' localPath.data part hpf.1
          subst hxe
          subst hpe
          exact ⟨by simpa using hne, by simpa using hnm⟩

/-- Witness for `c5_amended`: a cross-depth stylesheet reference is emitted
as `../f.woff2`, a path relative to the stylesheet's directory. -/
theorem c5_amended_witness :
    strStarts "../f.woff2" "/" = false :=
  (c5_amended "docs.example.com" ["styles"] "https://docs.example.com/f.woff2" "../f.woff2"
    (by decide)).2

/-- C5, counterexample: the markup rewriter emits the root-anchored path
`/guide.html` (and `updateHtmlUrls` does not even receive the artifact's
directory), not a path relative to the artifact's directory. -/
theorem c5_markup_counterexample :
    updateHtmlUrls "docs.example.com" "<a href=\"https://docs.example.com/guide.html\">" =
      "<a href=\"/guide.html\">" ∧
    strStarts "/guide.html" "/" = true := by
  constructor
  · decide
  · decide

/-- C2, counterexample: rewriting is not idempotent.  The first pass turns
`href="https://docs.example.com/guide"` into the extension-less
`href="/guide"`; the second pass appends `.html` to it. -/
theorem c2_idempotence_counterexample :
    updateHtmlUrls "docs.example.com"
        (updateHtmlUrls "docs.example.com" "<a href=\"https://docs.example.com/guide\">x</a>") ≠
      updateHtmlUrls "docs.example.com" "<a href=\"https://docs.example.com/guide\">x</a>" := by
  decide

/-! ### Idempotence analysis of the attribute rewriter (C2) -/

/-- The net effect of one attribute-regex pass on one attribute value:
the rewritten value when the replacer rewrites, the original value
otherwise. -/
def rewriteStep (domain attr url : String) : String :=
  (rewriteAttrValue domain attr url).getD url

theorem all_imp {p q : Char → Bool} (h : ∀ c, p c = true → q c = true)
    {l : List Char} (hl : l.all p = true) : l.all q = true :=
  List.all_eq_true.mpr (fun c hc => h c (List.all_eq_true.mp hl c hc))

theorem plainChar_eq_false_iff (c : Char) : plainChar c = false ↔
    (c = '%' ∨ c = '[' ∨ c = ']' ∨ c = '<' ∨ c = '>' ∨ c = ':' ∨ c = '"' ∨
      c = '\\' ∨ c = '|' ∨ c = '?' ∨ c = '*') := by
  unfold plainChar badChar
  simp only [Bool.not_eq_false']
  simp [Bool.or_eq_true, decide_eq_true_eq, or_assoc]

theorem hostChar_plain (c : Char) (h : hostChar c = true) : plainChar c = true := by
  by_contra hcon
  have hfalse : plainChar c = false := Bool.eq_false_iff.mpr hcon
  rcases (plainChar_eq_false_iff c).mp hfalse with
    rfl | rfl | rfl | rfl | rfl | rfl | rfl | rfl | rfl | rfl | rfl <;>
    exact absurd h (by decide)

theorem alnumChar_plain (c : Char) (h : alnumChar c = true) : plainChar c = true := by
  by_contra hcon
  have hfalse : plainChar c = false := Bool.eq_false_iff.mpr hcon
  rcases (plainChar_eq_false_iff c).mp hfalse with
    rfl | rfl | rfl | rfl | rfl | rfl | rfl | rfl | rfl | rfl | rfl <;>
    exact absurd h (by decide)

theorem safeQuery_plain (s : String) : plainStr (safeQuery s) = true := by
  unfold plainStr safeQuery
  apply List.all_eq_true.mpr
  intro c hc
  obtain ⟨c0, -, hce⟩ := List.mem_map.mp hc
  by_cases ha : alnumChar c0 = true
  · rw [if_pos ha] at hce
    exact hce ▸ alnumChar_plain c0 ha
  · rw [if_neg ha] at hce
    subst hce
    decide

theorem safeQuery_no_slash (s : String) : '/' ∉ (safeQuery s).data := by
  intro hmem
  obtain ⟨c0, -, hce⟩ := List.mem_map.mp hmem
  by_cases ha : alnumChar c0 = true
  · rw [if_pos ha] at hce
    rw [hce] at ha
    exact absurd ha (by decide)
  · rw [if_neg ha] at hce
    exact absurd hce (by decide)

theorem splitChar_mem_subset (sep : Char) (s : List Char) :
    ∀ part ∈ splitChar sep s, ∀ c ∈ part, c ∈ s := by
  induction s with
  | nil =>
    intro part hp
    rcases List.mem_singleton.mp hp with rfl
    intro c hc
    cases hc
  | cons c0 rest ih =>
    intro part hp
    rcases hsp : splitChar sep rest with _ | ⟨p, ps⟩
    · exact absurd hsp (splitChar_ne_nil sep rest)
    · rw [splitChar_cons_eq sep c0 rest p ps hsp] at hp
      by_cases hc0 : c0 = sep
      · rw [if_pos hc0] at hp
        rcases List.mem_cons.mp hp with rfl | hp
        · intro c hc
          cases hc
        · intro c hc
          exact List.mem_cons_of_mem _ (ih part (hsp ▸ hp) c hc)
      · rw [if_neg hc0] at hp
        rcases List.mem_cons.mp hp with rfl | hp
        · intro c hc
          rcases List.mem_cons.mp hc with rfl | hc
          · exact List.mem_cons_self _ _
          · exact List.mem_cons_of_mem _
              (ih p (hsp ▸ List.mem_cons_self _ _) c hc)
        · intro c hc
          exact List.mem_cons_of_mem _
            (ih part (hsp ▸ List.mem_cons_of_mem _ hp) c hc)

theorem joinSep_splitChar (sep : Char) (s : List Char) :
    joinSep sep (splitChar sep s) = s := by
  induction s with
  | nil => rfl
  | cons c rest ih =>
    rcases hsp : splitChar sep rest with _ | ⟨p, ps⟩
    · exact absurd hsp (splitChar_ne_nil sep rest)
    · rw [splitChar_cons_eq sep c rest p ps hsp]
      rw [hsp] at ih
      by_cases hc : c = sep
      · rw [if_pos hc]
        show [] ++ sep :: joinSep sep (p :: ps) = c :: rest
        rw [ih, hc]
        rfl
      · rw [if_neg hc]
        cases ps with
        | nil =>
          show c :: p = c :: rest
          rw [← ih]
          rfl
        | cons q qs =>
          show (c :: p) ++ sep :: joinSep sep (q :: qs) = c :: rest
          rw [← ih]
          rfl

theorem relativeSafeUrl_eq_self (s : String) (h : plainStr s = true) :
    relativeSafeUrl s = s := by
  unfold relativeSafeUrl
  have hparts : ∀ p ∈ splitChar '/' s.data, (safePath (String.mk p)).data = p := by
    intro p hp
    have hpl : plainStr (String.mk p) = true := by
      unfold plainStr
      apply List.all_eq_true.mpr
      intro c hc
      exact List.all_eq_true.mp h c (splitChar_mem_subset '/' s.data p hp c hc)
    rw [safePath_eq_self _ hpl]
  have hmap : (splitChar '/' s.data).map (fun p => (safePath (String.mk p)).data) =
      splitChar '/' s.data := by
    calc (splitChar '/' s.data).map (fun p => (safePath (String.mk p)).data)
        = (splitChar '/' s.data).map id := List.map_congr_left hparts
      _ = splitChar '/' s.data := List.map_id _
  rw [hmap, joinSep_splitChar]

theorem parseHttpUrl_host_chars (s : String) (u : JsUrl)
    (hp : parseHttpUrl s = some u) : u.host.data.all hostChar = true := by
  unfold parseHttpUrl at hp
  split at hp
  · exact (parseHttpUrlAux_inv _ _ _ hp).2.1
  · split at hp
    · exact (parseHttpUrlAux_inv _ _ _ hp).2.1
    · exact Option.noConfusion hp

theorem strStarts_of_data {s : String} {l : List Char} (h : s.data = l) (pat : String) :
    strStarts s pat = List.isPrefixOf pat.data l := by
  unfold strStarts
  rw [h]

theorem isPrefixOf_cons_cons (a b : Char) (as bs : List Char) :
    List.isPrefixOf (a :: as) (b :: bs) = (a == b && List.isPrefixOf as bs) := rfl

theorem isPrefixOf_head_ne {a b : Char} (h : a ≠ b) (as bs : List Char) :
    List.isPrefixOf (a :: as) (b :: bs) = false := by
  rw [isPrefixOf_cons_cons, beq_eq_false_iff_ne.mpr h]
  rfl

theorem isPrefixOf_cons_same (a : Char) (as bs : List Char) :
    List.isPrefixOf (a :: as) (a :: bs) = List.isPrefixOf as bs := by
  rw [isPrefixOf_cons_cons]
  simp

/-- The mapped local path of a parsed URL with a plain path is itself plain,
does not look like a `data:` or absolute URL, and (together with the
remaining rewriter conditions) is therefore sent through the
relative-URL arm unchanged by a second pass. -/
theorem mapped_shape (domain : String) (u : JsUrl) (orig : String)
    (hhost : u.host.data.all hostChar = true)
    (hplain : plainStr u.pathname = true)
    (hpstart : strStarts u.pathname "/" = true)
    (hslash : strStarts u.pathname "//" = false) :
    plainStr (getRelativePathCore domain u orig) = true ∧
    strStarts (getRelativePathCore domain u orig) "data:" = false ∧
    isAbsoluteish (getRelativePathCore domain u orig) = false := by
  have hhostplain : plainStr u.host = true := all_imp hostChar_plain hhost
  have hbaseplain : plainStr (if u.host ≠ domain then "/assets/" ++ u.host ++ u.pathname
      else u.pathname) = true := by
    by_cases hd : u.host ≠ domain
    · rw [if_pos hd]
      exact plainStr_append _ _ (plainStr_append _ _ (by decide) hhostplain) hplain
    · rw [if_neg hd]
      exact hplain
  have hrel : getRelativePathCore domain u orig =
      (if u.host ≠ domain then "/assets/" ++ u.host ++ u.pathname else u.pathname) ++
        (if u.search ≠ "" ∧ resourceLike orig then safeQuery u.search else "") := by
    unfold getRelativePathCore
    rw [safePath_eq_self _ hbaseplain]
    by_cases hq : u.search ≠ "" ∧ resourceLike orig
    · rw [if_pos hq, if_pos hq]
    · rw [if_neg hq, if_neg hq, String.append_empty]
  obtain ⟨pt, hpt⟩ : ∃ t, u.pathname.data = '/' :: t := by
    have := List.isPrefixOf_iff_prefix.mp hpstart
    obtain ⟨t, ht⟩ := this
    exact ⟨t, by simpa using ht.symm⟩
  have hqnoslash : '/' ∉ (if u.search ≠ "" ∧ resourceLike orig then safeQuery u.search
      else "").data := by
    by_cases hq : u.search ≠ "" ∧ resourceLike orig
    · rw [if_pos hq]
      exact safeQuery_no_slash u.search
    · rw [if_neg hq]
      decide
  have hshape : ∃ t : List Char, (getRelativePathCore domain u orig).data = '/' :: t ∧
      List.isPrefixOf ['/'] t = false := by
    by_cases hd : u.host ≠ domain
    · refine ⟨"assets/".data ++ (u.host.data ++ (u.pathname.data ++
          (if u.search ≠ "" ∧ resourceLike orig then safeQuery u.search else "").data)), ?_, ?_⟩
      · rw [hrel, if_pos hd]
        simp only [String.data_append, List.append_assoc]
        rfl
      · rw [show ("assets/".data : List Char) = 'a' :: "ssets/".data from rfl,
          List.cons_append]
        exact isPrefixOf_head_ne (by decide) _ _
    · refine ⟨pt ++ (if u.search ≠ "" ∧ resourceLike orig then safeQuery u.search
          else "").data, ?_, ?_⟩
      · rw [hrel, if_neg hd, String.data_append, hpt]
        rfl
      · cases pt with
        | nil =>
          rcases hqde : (if u.search ≠ "" ∧ resourceLike orig then safeQuery u.search
              else "").data with _ | ⟨c2, t3⟩
          · rfl
          · have hc2 : c2 ≠ '/' := by
              intro hcon
              apply hqnoslash
              rw [hqde, hcon]
              exact List.mem_cons_self _ _
            exact isPrefixOf_head_ne (Ne.symm hc2) _ _
        | cons c1 t1 =>
          have hc1 : c1 ≠ '/' := by
            intro hcon
            rw [strStarts_of_data hpt, hcon,
              show ("//".data : List Char) = '/' :: ['/'] from rfl,
              isPrefixOf_cons_same, isPrefixOf_cons_same,
              List.isPrefixOf_nil_left] at hslash
            exact Bool.noConfusion hslash
          exact isPrefixOf_head_ne (Ne.symm hc1) _ _
  obtain ⟨t, ht, htns⟩ := hshape
  refine ⟨?_, ?_, ?_⟩
  · rw [hrel]
    apply plainStr_append
    · exact hbaseplain
    · by_cases hq : u.search ≠ "" ∧ resourceLike orig
      · rw [if_pos hq]
        exact safeQuery_plain u.search
      · rw [if_neg hq]
        decide
  · rw [strStarts_of_data ht,
      show ("data:".data : List Char) = 'd' :: "ata:".data from rfl]
    exact isPrefixOf_head_ne (by decide) _ _
  · unfold isAbsoluteish
    rw [strStarts_of_data ht, strStarts_of_data ht, strStarts_of_data ht]
    have h1 : List.isPrefixOf "http:".data ('/' :: t) = false := by
      rw [show ("http:".data : List Char) = 'h' :: "ttp:".data from rfl]
      exact isPrefixOf_head_ne (by decide) _ _
    have h2 : List.isPrefixOf "https:".data ('/' :: t) = false := by
      rw [show ("https:".data : List Char) = 'h' :: "ttps:".data from rfl]
      exact isPrefixOf_head_ne (by decide) _ _
    have h3 : List.isPrefixOf "//".data ('/' :: t) = false := by
      rw [show ("//".data : List Char) = '/' :: ['/'] from rfl, isPrefixOf_cons_same]
      exact htns
    rw [h1, h2, h3]
    rfl

theorem starts_http_facts (url : String)
    (h : strStarts url "http:" = true ∨ strStarts url "https:" = true) :
    strStarts url "data:" = false ∧ strStarts url "//" = false ∧
      isAbsoluteish url = true := by
  have hfacts : ∃ t : List Char, url.data = 'h' :: t := by
    rcases h with h | h
    · obtain ⟨t, ht⟩ := List.isPrefixOf_iff_prefix.mp h
      exact ⟨"ttp:".data ++ t, by rw [← ht]; rfl⟩
    · obtain ⟨t, ht⟩ := List.isPrefixOf_iff_prefix.mp h
      exact ⟨"ttps:".data ++ t, by rw [← ht]; rfl⟩
  obtain ⟨t, ht⟩ := hfacts
  refine ⟨?_, ?_, ?_⟩
  · rw [strStarts_of_data ht,
      show ("data:".data : List Char) = 'd' :: "ata:".data from rfl]
    exact isPrefixOf_head_ne (by decide) _ _
  · rw [strStarts_of_data ht, show ("//".data : List Char) = '/' :: ['/'] from rfl]
    exact isPrefixOf_head_ne (by decide) _ _
  · unfold isAbsoluteish
    rcases h with h | h <;> rw [h] <;> simp

/-- C2, amended: the per-occurrence attribute rewrite is idempotent for the
non-srcset URL-carrying attributes on absolute `http(s)` URLs of plain
shape (path without percent signs, brackets or unsafe characters, not
beginning `//`), provided that for `href` the mapped path contains a dot
or ends with a slash — the counterexample shows the `href` exception is
real: extension-less mapped paths gain `.html` on the second pass. -/
theorem c2_amended (domain attr url : String) (u : JsUrl)
    (hattr : attr ∈ (["src", "href", "poster", "data", "background", "content"] : List String))
    (habs : strStarts url "http:" = true ∨ strStarts url "https:" = true)
    (hp : parseHttpUrl url = some u)
    (hplain : plainStr u.pathname = true)
    (hpstart : strStarts u.pathname "/" = true)
    (hslash : strStarts u.pathname "//" = false)
    (hhref : attr = "href" →
      strContains (getRelativePathCore domain u url) "." = true ∨
        strEnds (getRelativePathCore domain u url) "/" = true) :
    rewriteStep domain attr (rewriteStep domain attr url) = rewriteStep domain attr url := by
  obtain ⟨hdata, hdslash, habsish⟩ := starts_http_facts url habs
  have hsrcne : asciiLower attr ≠ "srcset" := by
    fin_cases hattr <;> decide
  rcases hv : rewriteAttrValue domain attr url with _ | v
  · unfold rewriteStep
    rw [hv]
    show (rewriteAttrValue domain attr url).getD url = url
    rw [hv]
    rfl
  · suffices hs : rewriteAttrValue domain attr v = some v by
      unfold rewriteStep
      rw [hv]
      show (rewriteAttrValue domain attr v).getD v = v
      rw [hs]
      rfl
    unfold rewriteAttrValue at hv
    rw [if_neg (by rw [hdata]; decide), if_neg hsrcne, if_pos habsish] at hv
    have hcand : absCandidate url = url := by
      unfold absCandidate
      rw [hdslash]
      simp
    unfold mapAbsolute at hv
    rw [hcand] at hv
    by_cases hallow : isAllowedUrlS domain url = true
    · rw [if_pos hallow] at hv
      have hmap : getRelativePathS domain url = some (getRelativePathCore domain u url) := by
        unfold getRelativePathS
        rw [hp]
        rfl
      rw [hmap] at hv
      have hv' : (if getRelativePathCore domain u url = "" then none
          else some (getRelativePathCore domain u url)) = some v := hv
      by_cases hemp : getRelativePathCore domain u url = ""
      · rw [if_pos hemp] at hv'
        exact Option.noConfusion hv'
      · rw [if_neg hemp] at hv'
        have hveq : v = getRelativePathCore domain u url :=
          ((Option.some.injEq _ _).mp hv').symm
        subst hveq
        have hhost : u.host.data.all hostChar = true := parseHttpUrl_host_chars url u hp
        obtain ⟨hplainr, hdatar, habsr⟩ := mapped_shape domain u url hhost hplain hpstart hslash
        unfold rewriteAttrValue
        rw [if_neg (by rw [hdatar]; decide), if_neg hsrcne,
          if_neg (by rw [habsr]; decide), relativeSafeUrl_eq_self _ hplainr]
        show some (if attr = "href" ∧
            ¬ strContains (getRelativePathCore domain u url) "." = true ∧
            ¬ strEnds (getRelativePathCore domain u url) "/" = true then
            getRelativePathCore domain u url ++ ".html"
          else getRelativePathCore domain u url) = some (getRelativePathCore domain u url)
        rw [if_neg ?hcond]
        case hcond =>
          rintro ⟨ha, hc, he⟩
          rcases hhref ha with hh | hh
          · exact hc hh
          · exact he hh
    · rw [if_neg hallow] at hv
      exact Option.noConfusion hv

/-- Witness for `c2_amended`: the per-occurrence rewrite of
`src="https://docs.example.com/guide"` is idempotent. -/
theorem c2_amended_witness :
    rewriteStep "docs.example.com" "src"
        (rewriteStep "docs.example.com" "src" "https://docs.example.com/guide") =
      rewriteStep "docs.example.com" "src" "https://docs.example.com/guide" :=
  c2_amended "docs.example.com" "src" "https://docs.example.com/guide"
    ⟨"https", "docs.example.com", "/guide", "", ""⟩
    (by decide) (Or.inr (by decide)) (by decide) (by decide) (by decide) (by decide)
    (fun h => absurd h (by decide))

end Archiver
